import Mathlib

/-! Constant-product pool with three fee policies.

A shallow embedding of `main.go`: the `Swap` pool, its `Trade` transition, the
`Simulate` aggregation and the `Benchmark` tally.

Numbers: the program computes in `float64`. It is embedded twice. First over exact
arithmetic, every `float64` a rational number: division is the field division of `ℚ`,
which agrees with real division whenever the divisor is nonzero, as the theorems
establish from positive reserves where it matters. Then, in `Float64`, with the binary64
arithmetic of the program, rounding, overflow, signed zeros and NaN included; properties
that hold of the exact reading only are stated of it and refuted of the other.
Mutation of the receiver `*Swap` is explicit state passing: `Trade` returns the
updated pool, `Simulate` returns the updated pool together with its result pair.
Printing is not modelled.
-/

namespace UniswapSim

/-- The fee rate constant `FeeRate = 0.003`. -/
def FeeRate : ℚ := 3 / 1000

/-- The constant `BenchmarkBatch = 1000`. -/
def BenchmarkBatch : Nat := 1000

/-- The tag `FeeModelOriginal = iota`: third item of the constant block, so `2`. -/
def FeeModelOriginal : Int := 2

/-- The tag `FeeModelSeparate`, the next `iota`. -/
def FeeModelSeparate : Int := 3

/-- The tag `FeeModelLaterSeparate`, the next `iota`. -/
def FeeModelLaterSeparate : Int := 4

/-- The pool `type Swap struct`. -/
structure Swap where
  Model : Int
  X : ℚ
  Y : ℚ
  IX : ℚ
  IY : ℚ
  FX : ℚ
  FY : ℚ
deriving DecidableEq

/-- The constructor `NewSwap`: the fee buckets take the zero value. -/
def NewSwap (x y : ℚ) (model : Int) : Swap :=
  { Model := model, IX := x, IY := y, X := x, Y := y, FX := 0, FY := 0 }

/-- The transition `(s *Swap) Trade(amount)`, one field update per source line. -/
def Trade (s : Swap) (amount : ℚ) : Swap :=
  let k := s.X * s.Y
  if s.Model = FeeModelOriginal then
    if amount > 0 then
      let fee := amount * FeeRate
      let amount := amount - fee
      let s := { s with X := s.X + amount }
      let s := { s with Y := k / s.X }
      { s with X := s.X + fee }
    else
      let fee := amount * FeeRate
      let amount1 := -amount
      let fee := -fee
      let amount := amount1 - fee
      let s := { s with Y := s.Y + amount }
      let s := { s with X := k / s.Y }
      { s with Y := s.Y + fee }
  else if s.Model = FeeModelSeparate then
    if amount > 0 then
      let fee := amount * FeeRate
      let amount := amount - fee
      let s := { s with X := s.X + amount }
      let s := { s with Y := k / s.X }
      { s with FX := s.FX + fee }
    else
      let fee := amount * FeeRate
      let amount1 := -amount
      let fee := -fee
      let amount := amount1 - fee
      let s := { s with Y := s.Y + amount }
      let s := { s with X := k / s.Y }
      { s with FY := s.FY + fee }
  else if s.Model = FeeModelLaterSeparate then
    if amount > 0 then
      let s := { s with X := s.X + amount }
      let y := s.Y - k / s.X
      let fee := y * FeeRate
      let s := { s with Y := s.Y - y }
      { s with FY := s.FY + fee }
    else
      let s := { s with Y := s.Y - amount }
      let x := s.X - k / s.Y
      let fee := x * FeeRate
      let s := { s with X := s.X - x }
      { s with FX := s.FX + fee }
  else
    s

/-- The aggregation `(s *Swap) Simulate(trades, verbose)`: the pool after the loop
and the returned pair `(dX, dY)`; `verbose` only selects printing. -/
def Simulate (s : Swap) (trades : List ℚ) (_verbose : Bool) : Swap × ℚ × ℚ :=
  let s := trades.foldl Trade s
  let dX := (s.X + s.FX - s.IX) / s.IX
  let dY := (s.Y + s.FY - s.IY) / s.IY
  (s, dX, dY)

/-- The counters `winX, winY, winXY, failXY` of `Benchmark`. -/
structure Counters where
  winX : Int
  winY : Int
  winXY : Int
  failXY : Int
deriving DecidableEq

/-- One iteration of the loop of `Benchmark`. -/
def benchmarkStep (x y : ℚ) (model : Int) (c : Counters) (trades : List ℚ) : Counters :=
  let os := NewSwap x y FeeModelOriginal
  let ss := NewSwap x y model
  let ro := Simulate os trades false
  let rs := Simulate ss trades false
  let osdX := ro.2.1
  let osdY := ro.2.2
  let ssdX := rs.2.1
  let ssdY := rs.2.2
  let c := if ssdX ≥ osdX then { c with winX := c.winX + 1 } else c
  let c := if ssdY ≥ osdY then { c with winY := c.winY + 1 } else c
  let c := if ssdX ≥ osdX ∧ ssdY ≥ osdY then { c with winXY := c.winXY + 1 } else c
  if ssdX < osdX ∧ ssdY < osdY then { c with failXY := c.failXY + 1 } else c

/-- The tally `Benchmark(x, y, tradesGroup, model)`: the four counters it prints. -/
def Benchmark (x y : ℚ) (tradesGroup : List (List ℚ)) (model : Int) : Counters :=
  tradesGroup.foldl (benchmarkStep x y model) ⟨0, 0, 0, 0⟩

/-- The mirror image of a pool: the roles of the two assets exchanged. -/
def mirror (s : Swap) : Swap :=
  { Model := s.Model, X := s.Y, Y := s.X, IX := s.IY, IY := s.IX, FX := s.FY, FY := s.FX }

/-- The divisor of the one division `k / s.X` or `k / s.Y` that `Trade s amount`
performs, read off the branch taken; there is none under an unknown tag. -/
def tradeDivisor (s : Swap) (amount : ℚ) : Option ℚ :=
  if s.Model = FeeModelOriginal ∨ s.Model = FeeModelSeparate then
    if amount > 0 then some (s.X + (amount - amount * FeeRate))
    else some (s.Y + (-amount - -(amount * FeeRate)))
  else if s.Model = FeeModelLaterSeparate then
    if amount > 0 then some (s.X + amount) else some (s.Y - amount)
  else
    none

/-- The integer quotient `a / b` of Go on `int` (64 bits): truncated toward zero, a
run-time panic when the divisor is zero, and the most negative value divided by `-1` is
itself. -/
def intDiv (a b : Int) : Option Int :=
  if b = 0 then none
  else if a = -(2 ^ 63) ∧ b = -1 then some (-(2 ^ 63))
  else some (Int.tdiv a b)

/-- The library call `rand.Intn(n)`: a run-time panic when `n ≤ 0`, otherwise the value
`v` that the source of randomness yields. -/
def Intn (v n : Int) : Option Int :=
  if n ≤ 0 then none else some v

/-! ## The same program over `float64`

The definitions above read `float64` as exact rational arithmetic. Those below keep the
arithmetic of the program: every operation is rounded to the nearest binary64 value,
ties to even, with signed zeros, infinities and NaN, each source operation rounded on its
own (no fused multiply-add, as compiled for amd64). -/

/-- A `float64`, an IEEE 754 binary64 datum. The value of `fin neg m e` is
`(-1)^neg * m * 2^e`; it is kept in the canonical form `m < 2^53`, `-1074 ≤ e ≤ 971`, and
`2^52 ≤ m` unless `e = -1074` (the subnormal numbers and the two zeros). -/
inductive F64 where
  | nan : F64
  | inf (neg : Bool) : F64
  | fin (neg : Bool) (m : Nat) (e : Int) : F64
deriving DecidableEq

namespace F64

/-- The position of the leading bit of `n` by repeated halving, at most `fuel` times. -/
def log2Fuel : Nat → Nat → Nat
  | 0, _ => 0
  | fuel + 1, n => if n < 2 then 0 else log2Fuel fuel (n / 2) + 1

/-- The position of the leading bit of `n`, that is `⌊log₂ n⌋` for `n > 0`. -/
def log2 (n : Nat) : Nat := log2Fuel n n

/-- Rounding to nearest, ties to even, of the real number `(-1)^neg * a / b`, for
`b > 0`: the binade `e` of `a / b` is located, the quotient is cut at the unit
`2^qe` of that binade (of the subnormal range below `2^-1022`), the remainder decides the
last bit, and a result beyond the largest finite value is an infinity. -/
def round (neg : Bool) (a b : Nat) : F64 :=
  if a = 0 then fin neg 0 (-1074)
  else
    let e0 : Int := (log2 a : Int) - (log2 b : Int)
    let below : Bool :=
      if 0 ≤ e0 then decide (a < b * 2 ^ e0.toNat) else decide (a * 2 ^ (-e0).toNat < b)
    let e : Int := if below then e0 - 1 else e0
    let qe : Int := max e (-1022) - 52
    let num : Nat := if qe ≤ 0 then a * 2 ^ (-qe).toNat else a
    let den : Nat := if qe ≤ 0 then b else b * 2 ^ qe.toNat
    let m0 : Nat := num / den
    let r : Nat := num % den
    let m : Nat :=
      if 2 * r < den then m0
      else if den < 2 * r then m0 + 1
      else if m0 % 2 = 0 then m0 else m0 + 1
    let m1 : Nat := if m = 2 ^ 53 then 2 ^ 52 else m
    let qe1 : Int := if m = 2 ^ 53 then qe + 1 else qe
    if 971 < qe1 then inf neg else fin neg m1 qe1

/-- The signed integer `(-1)^neg * m * 2^(e - e0)`, for `e0 ≤ e`. -/
def scaled (neg : Bool) (m : Nat) (e e0 : Int) : Int :=
  if neg then -((m * 2 ^ (e - e0).toNat : Nat) : Int)
  else ((m * 2 ^ (e - e0).toNat : Nat) : Int)

/-- Rounding of the real number `A * 2^e0`, for a nonzero integer `A`. -/
def roundScaled (A : Int) (e0 : Int) : F64 :=
  if 0 ≤ e0 then round (decide (A < 0)) (A.natAbs * 2 ^ e0.toNat) 1
  else round (decide (A < 0)) A.natAbs (2 ^ (-e0).toNat)

/-- The negation `-x`: the sign is flipped, also of a zero. -/
def neg : F64 → F64
  | nan => nan
  | inf s => inf (!s)
  | fin s m e => fin (!s) m e

/-- The sum `x + y`. An exact zero sum is `+0`, unless both terms are `-0`. -/
def add : F64 → F64 → F64
  | nan, _ => nan
  | _, nan => nan
  | inf s, inf t => if s = t then inf s else nan
  | inf s, fin _ _ _ => inf s
  | fin _ _ _, inf t => inf t
  | fin s m e, fin t n f =>
    let e0 := min e f
    let A := scaled s m e e0 + scaled t n f e0
    if A = 0 then fin (s && t) 0 (-1074) else roundScaled A e0

/-- The difference `x - y`, which is `x + (-y)`. -/
def sub (x y : F64) : F64 := add x (neg y)

/-- The product `x * y`; an infinity times a zero is a NaN. -/
def mul : F64 → F64 → F64
  | nan, _ => nan
  | _, nan => nan
  | inf s, inf t => inf (xor s t)
  | inf s, fin t n _ => if n = 0 then nan else inf (xor s t)
  | fin s m _, inf t => if m = 0 then nan else inf (xor s t)
  | fin s m e, fin t n f =>
    if 0 ≤ e + f then round (xor s t) (m * n * 2 ^ (e + f).toNat) 1
    else round (xor s t) (m * n) (2 ^ (-(e + f)).toNat)

/-- The quotient `x / y`; `0 / 0` and `∞ / ∞` are NaN, a nonzero number over a zero is
an infinity. -/
def div : F64 → F64 → F64
  | nan, _ => nan
  | _, nan => nan
  | inf _, inf _ => nan
  | inf s, fin t _ _ => inf (xor s t)
  | fin s _ _, inf t => fin (xor s t) 0 (-1074)
  | fin s m e, fin t n f =>
    if n = 0 then (if m = 0 then nan else inf (xor s t))
    else if 0 ≤ e - f then round (xor s t) (m * 2 ^ (e - f).toNat) n
    else round (xor s t) m (n * 2 ^ (-(e - f)).toNat)

/-- The comparison `x < y`: false when either side is a NaN; the two zeros are equal. -/
def lt : F64 → F64 → Bool
  | nan, _ => false
  | _, nan => false
  | inf s, inf t => s && !t
  | inf s, fin _ _ _ => s
  | fin _ _ _, inf t => !t
  | fin s m e, fin t n f => decide (scaled s m e (min e f) < scaled t n f (min e f))

/-- The comparison `x <= y`: false when either side is a NaN; the two zeros are equal. -/
def le : F64 → F64 → Bool
  | nan, _ => false
  | _, nan => false
  | inf s, inf t => s || !t
  | inf s, fin _ _ _ => s
  | fin _ _ _, inf t => !t
  | fin s m e, fin t n f => decide (scaled s m e (min e f) ≤ scaled t n f (min e f))

/-- The `float64` nearest to the natural number `n`, as a numeric literal denotes it. -/
def ofNat (n : Nat) : F64 := round false n 1

/-- Whether the datum is a number, neither an infinity nor a NaN. -/
def isFinite : F64 → Bool
  | fin _ _ _ => true
  | _ => false

/-- The rational value of a finite datum (and `0` for the others). -/
def toRat : F64 → ℚ
  | fin s m e => (if s then -1 else 1) * (m : ℚ) * (2 : ℚ) ^ e
  | _ => 0

end F64

namespace Float64

/-- The constant `FeeRate = 0.003` where it is used, converted to `float64`. -/
def FeeRate : F64 := F64.round false 3 1000

/-- The pool `type Swap struct`. -/
structure Swap where
  Model : Int
  X : F64
  Y : F64
  IX : F64
  IY : F64
  FX : F64
  FY : F64
deriving DecidableEq

/-- The constructor `NewSwap`: the fee buckets take the zero value `+0`. -/
def NewSwap (x y : F64) (model : Int) : Swap :=
  { Model := model, IX := x, IY := y, X := x, Y := y, FX := F64.ofNat 0, FY := F64.ofNat 0 }

/-- The transition `(s *Swap) Trade(amount)`, one field update per source line, one
rounding per source operation. -/
def Trade (s : Swap) (amount : F64) : Swap :=
  let k := F64.mul s.X s.Y
  if s.Model = FeeModelOriginal then
    if F64.lt (F64.ofNat 0) amount then
      let fee := F64.mul amount FeeRate
      let amount := F64.sub amount fee
      let s := { s with X := F64.add s.X amount }
      let s := { s with Y := F64.div k s.X }
      { s with X := F64.add s.X fee }
    else
      let fee := F64.mul amount FeeRate
      let amount1 := F64.neg amount
      let fee := F64.neg fee
      let amount := F64.sub amount1 fee
      let s := { s with Y := F64.add s.Y amount }
      let s := { s with X := F64.div k s.Y }
      { s with Y := F64.add s.Y fee }
  else if s.Model = FeeModelSeparate then
    if F64.lt (F64.ofNat 0) amount then
      let fee := F64.mul amount FeeRate
      let amount := F64.sub amount fee
      let s := { s with X := F64.add s.X amount }
      let s := { s with Y := F64.div k s.X }
      { s with FX := F64.add s.FX fee }
    else
      let fee := F64.mul amount FeeRate
      let amount1 := F64.neg amount
      let fee := F64.neg fee
      let amount := F64.sub amount1 fee
      let s := { s with Y := F64.add s.Y amount }
      let s := { s with X := F64.div k s.Y }
      { s with FY := F64.add s.FY fee }
  else if s.Model = FeeModelLaterSeparate then
    if F64.lt (F64.ofNat 0) amount then
      let s := { s with X := F64.add s.X amount }
      let y := F64.sub s.Y (F64.div k s.X)
      let fee := F64.mul y FeeRate
      let s := { s with Y := F64.sub s.Y y }
      { s with FY := F64.add s.FY fee }
    else
      let s := { s with Y := F64.sub s.Y amount }
      let x := F64.sub s.X (F64.div k s.Y)
      let fee := F64.mul x FeeRate
      let s := { s with X := F64.sub s.X x }
      { s with FX := F64.add s.FX fee }
  else
    s

/-- The aggregation `(s *Swap) Simulate(trades, verbose)`: the pool after the loop
and the returned pair `(dX, dY)`; `verbose` only selects printing. -/
def Simulate (s : Swap) (trades : List F64) (_verbose : Bool) : Swap × F64 × F64 :=
  let s := trades.foldl Trade s
  let dX := F64.div (F64.sub (F64.add s.X s.FX) s.IX) s.IX
  let dY := F64.div (F64.sub (F64.add s.Y s.FY) s.IY) s.IY
  (s, dX, dY)

/-- One iteration of the loop of `Benchmark`; `a >= b` is `b <= a`. -/
def benchmarkStep (x y : F64) (model : Int) (c : Counters) (trades : List F64) : Counters :=
  let os := NewSwap x y FeeModelOriginal
  let ss := NewSwap x y model
  let ro := Simulate os trades false
  let rs := Simulate ss trades false
  let osdX := ro.2.1
  let osdY := ro.2.2
  let ssdX := rs.2.1
  let ssdY := rs.2.2
  let c := if F64.le osdX ssdX then { c with winX := c.winX + 1 } else c
  let c := if F64.le osdY ssdY then { c with winY := c.winY + 1 } else c
  let c := if F64.le osdX ssdX ∧ F64.le osdY ssdY then { c with winXY := c.winXY + 1 } else c
  if F64.lt ssdX osdX ∧ F64.lt ssdY osdY then { c with failXY := c.failXY + 1 } else c

/-- The tally `Benchmark(x, y, tradesGroup, model)`: the four counters it prints. -/
def Benchmark (x y : F64) (tradesGroup : List (List F64)) (model : Int) : Counters :=
  tradesGroup.foldl (benchmarkStep x y model) ⟨0, 0, 0, 0⟩

/-- The conversion `int(f)` to the 64-bit `int`: the fraction is discarded, rounding
toward zero. A value that `int` cannot hold, an infinity or a NaN, gives the result of
the amd64 conversion instruction, the most negative `int` (the language leaves it to the
implementation). -/
def truncToInt : F64 → Int
  | F64.nan => -(2 ^ 63)
  | F64.inf _ => -(2 ^ 63)
  | F64.fin s m e =>
    let a : Nat := if 0 ≤ e then m * 2 ^ e.toNat else m / 2 ^ (-e).toNat
    let v : Int := if s then -(a : Int) else (a : Int)
    if -(2 ^ 63) ≤ v ∧ v < 2 ^ 63 then v else -(2 ^ 63)

/-- The conversion `float64(v)` of an `int`: the nearest `float64`. -/
def float64OfInt (v : Int) : F64 := F64.round (decide (v < 0)) v.natAbs 1

/-- The body of the loop of `ThresholdRoundRobinRandom` at index `i`: the entry it
writes, where `rnd i n` is the value drawn at that index for the bound `n`. -/
def roundRobinEntry (rnd : Nat → Int → Int) (s : Swap) (threshold : Int) (i : Nat) :
    Option F64 :=
  if i % 2 = 0 then
    (intDiv (truncToInt s.IX) threshold).bind fun n =>
      (Intn (rnd i n) n).map fun (v : Int) => float64OfInt v
  else
    (intDiv (truncToInt s.IY) threshold).bind fun n =>
      (Intn (rnd i n) n).map fun (v : Int) => F64.neg (float64OfInt v)

/-- The generator `ThresholdRoundRobinRandom(s, threshold)`: the slice of `10000`
entries, or nothing when an entry panics. -/
def ThresholdRoundRobinRandom (rnd : Nat → Int → Int) (s : Swap) (threshold : Int) :
    Option (List F64) :=
  (List.range 10000).mapM (roundRobinEntry rnd s threshold)

end Float64

/-! ## Auxiliary facts -/

theorem FeeRate_pos : 0 < FeeRate := by
  norm_num [FeeRate]

theorem FeeRate_lt_one : FeeRate < 1 := by
  norm_num [FeeRate]

/-- The amount net of fee is positive when the amount is. -/
theorem net_amount_pos (a : ℚ) (ha : 0 < a) : 0 < a - a * FeeRate := by
  have h : a - a * FeeRate = a * (1 - FeeRate) := by ring
  rw [h]
  exact mul_pos ha (by norm_num [FeeRate])

/-! ## The six branches of `Trade` -/

theorem separate_ne_original : FeeModelSeparate ≠ FeeModelOriginal := by decide

theorem later_ne_original : FeeModelLaterSeparate ≠ FeeModelOriginal := by decide

theorem later_ne_separate : FeeModelLaterSeparate ≠ FeeModelSeparate := by decide

theorem Trade_original_pos (s : Swap) (a : ℚ) (hm : s.Model = FeeModelOriginal)
    (ha : 0 < a) :
    Trade s a = { s with X := s.X + (a - a * FeeRate) + a * FeeRate,
                         Y := s.X * s.Y / (s.X + (a - a * FeeRate)) } := by
  simp only [Trade, hm, if_true, ha, gt_iff_lt]

theorem Trade_original_nonpos (s : Swap) (a : ℚ) (hm : s.Model = FeeModelOriginal)
    (ha : ¬ 0 < a) :
    Trade s a = { s with X := s.X * s.Y / (s.Y + (-a - -(a * FeeRate))),
                         Y := s.Y + (-a - -(a * FeeRate)) + -(a * FeeRate) } := by
  simp only [Trade, hm, if_true, ha, if_false, gt_iff_lt]

theorem Trade_separate_pos (s : Swap) (a : ℚ) (hm : s.Model = FeeModelSeparate)
    (ha : 0 < a) :
    Trade s a = { s with X := s.X + (a - a * FeeRate),
                         Y := s.X * s.Y / (s.X + (a - a * FeeRate)),
                         FX := s.FX + a * FeeRate } := by
  simp only [Trade, hm, separate_ne_original, if_false, if_true, ha, gt_iff_lt]

theorem Trade_separate_nonpos (s : Swap) (a : ℚ) (hm : s.Model = FeeModelSeparate)
    (ha : ¬ 0 < a) :
    Trade s a = { s with X := s.X * s.Y / (s.Y + (-a - -(a * FeeRate))),
                         Y := s.Y + (-a - -(a * FeeRate)),
                         FY := s.FY + -(a * FeeRate) } := by
  simp only [Trade, hm, separate_ne_original, if_false, if_true, ha, gt_iff_lt]

theorem Trade_later_pos (s : Swap) (a : ℚ) (hm : s.Model = FeeModelLaterSeparate)
    (ha : 0 < a) :
    Trade s a = { s with X := s.X + a,
                         Y := s.Y - (s.Y - s.X * s.Y / (s.X + a)),
                         FY := s.FY + (s.Y - s.X * s.Y / (s.X + a)) * FeeRate } := by
  simp only [Trade, hm, later_ne_original, later_ne_separate, if_false, if_true, ha,
    gt_iff_lt]

theorem Trade_later_nonpos (s : Swap) (a : ℚ) (hm : s.Model = FeeModelLaterSeparate)
    (ha : ¬ 0 < a) :
    Trade s a = { s with X := s.X - (s.X - s.X * s.Y / (s.Y - a)),
                         Y := s.Y - a,
                         FX := s.FX + (s.X - s.X * s.Y / (s.Y - a)) * FeeRate } := by
  simp only [Trade, hm, later_ne_original, later_ne_separate, if_false, if_true, ha,
    gt_iff_lt]

theorem Trade_other (s : Swap) (a : ℚ) (h1 : s.Model ≠ FeeModelOriginal)
    (h2 : s.Model ≠ FeeModelSeparate) (h3 : s.Model ≠ FeeModelLaterSeparate) :
    Trade s a = s := by
  simp only [Trade, h1, h2, h3, if_false]

/-! ## The Original policy along a trade sequence -/

/-- Dividing a product by `d` and multiplying by at least `d` does not lose any of it. -/
theorem le_add_mul_div (k d e : ℚ) (hk : 0 ≤ k) (hd : 0 < d) (he : 0 ≤ e) :
    k ≤ (d + e) * (k / d) := by
  have h1 : 0 ≤ k / d := div_nonneg hk hd.le
  have h2 : d * (k / d) = k := mul_div_cancel₀ k (ne_of_gt hd)
  have h3 : (d + e) * (k / d) = d * (k / d) + e * (k / d) := by ring
  have h4 := mul_nonneg he h1
  linarith

/-- With a positive product and a positive surplus the inequality is strict. -/
theorem lt_add_mul_div (k d e : ℚ) (hk : 0 < k) (hd : 0 < d) (he : 0 < e) :
    k < (d + e) * (k / d) := by
  have h1 : 0 < k / d := div_pos hk hd
  have h2 : d * (k / d) = k := mul_div_cancel₀ k (ne_of_gt hd)
  have h3 : (d + e) * (k / d) = d * (k / d) + e * (k / d) := by ring
  have h4 := mul_pos he h1
  linarith

/-- One Original-policy trade of any amount, from positive reserves: the tag, the initial
reserves and the fee buckets are untouched, both reserves stay positive and their
product does not decrease. -/
theorem trade_original_step (s : Swap) (a : ℚ) (hm : s.Model = FeeModelOriginal)
    (hx : 0 < s.X) (hy : 0 < s.Y) :
    (Trade s a).Model = s.Model ∧ (Trade s a).IX = s.IX ∧ (Trade s a).IY = s.IY ∧
    (Trade s a).FX = s.FX ∧ (Trade s a).FY = s.FY ∧
    0 < (Trade s a).X ∧ 0 < (Trade s a).Y ∧
    s.X * s.Y ≤ (Trade s a).X * (Trade s a).Y := by
  have hk : 0 < s.X * s.Y := mul_pos hx hy
  have hf := FeeRate_pos
  have hf1 := FeeRate_lt_one
  by_cases ha : 0 < a
  · have hnet := net_amount_pos a ha
    have hfee : 0 < a * FeeRate := mul_pos ha hf
    have hd : 0 < s.X + (a - a * FeeRate) := by linarith
    rw [Trade_original_pos s a hm ha]
    refine ⟨rfl, rfl, rfl, rfl, rfl, ?_, ?_, ?_⟩
    · show 0 < s.X + (a - a * FeeRate) + a * FeeRate
      linarith
    · show 0 < s.X * s.Y / (s.X + (a - a * FeeRate))
      exact div_pos hk hd
    · show s.X * s.Y ≤ (s.X + (a - a * FeeRate) + a * FeeRate)
          * (s.X * s.Y / (s.X + (a - a * FeeRate)))
      exact le_add_mul_div _ _ _ hk.le hd hfee.le
  · have ha0 : a ≤ 0 := not_lt.mp ha
    have hfee : 0 ≤ -(a * FeeRate) := by
      have := mul_nonneg (neg_nonneg.mpr ha0) hf.le
      linarith
    have hnet : 0 ≤ -a - -(a * FeeRate) := by
      have h1 : -a - -(a * FeeRate) = (-a) * (1 - FeeRate) := by ring
      rw [h1]
      exact mul_nonneg (neg_nonneg.mpr ha0) (by linarith)
    have hd : 0 < s.Y + (-a - -(a * FeeRate)) := by linarith
    rw [Trade_original_nonpos s a hm ha]
    refine ⟨rfl, rfl, rfl, rfl, rfl, ?_, ?_, ?_⟩
    · show 0 < s.X * s.Y / (s.Y + (-a - -(a * FeeRate)))
      exact div_pos hk hd
    · show 0 < s.Y + (-a - -(a * FeeRate)) + -(a * FeeRate)
      linarith
    · show s.X * s.Y ≤ s.X * s.Y / (s.Y + (-a - -(a * FeeRate)))
          * (s.Y + (-a - -(a * FeeRate)) + -(a * FeeRate))
      rw [mul_comm (s.X * s.Y / _)]
      exact le_add_mul_div _ _ _ hk.le hd hfee

/-- Any sequence of Original-policy trades from positive reserves: the tag, the initial
reserves and the fee buckets are untouched, both reserves stay positive and their
product does not decrease. -/
theorem foldl_trade_original (trades : List ℚ) (s : Swap) (hm : s.Model = FeeModelOriginal)
    (hx : 0 < s.X) (hy : 0 < s.Y) :
    (trades.foldl Trade s).Model = s.Model ∧ (trades.foldl Trade s).IX = s.IX ∧
    (trades.foldl Trade s).IY = s.IY ∧
    (trades.foldl Trade s).FX = s.FX ∧ (trades.foldl Trade s).FY = s.FY ∧
    0 < (trades.foldl Trade s).X ∧ 0 < (trades.foldl Trade s).Y ∧
    s.X * s.Y ≤ (trades.foldl Trade s).X * (trades.foldl Trade s).Y := by
  induction trades generalizing s with
  | nil => exact ⟨rfl, rfl, rfl, rfl, rfl, hx, hy, le_refl _⟩
  | cons a rest ih =>
    obtain ⟨h1, h2, h3, h4, h5, h6, h7, h8⟩ := trade_original_step s a hm hx hy
    obtain ⟨g1, g2, g3, g4, g5, g6, g7, g8⟩ := ih (Trade s a) (h1.trans hm) h6 h7
    rw [List.foldl_cons]
    exact ⟨g1.trans h1, g2.trans h2, g3.trans h3, g4.trans h4, g5.trans h5, g6, g7,
      le_trans h8 g8⟩

/-! ## Single trades, policy by policy -/

/-- C1. Original policy, positive trade: from positive reserves `x`, `y` and an amount
`a > 0`, the division is by the positive `x + a - a * FeeRate`, and afterwards
`X = x + a`, `Y = x * y / (x + a - a * FeeRate)`, so `Y` times the reserve before
re-injection is the product before the trade; `FX` and `FY` are unchanged. -/
theorem trade_original_positive (s : Swap) (a : ℚ)
    (hm : s.Model = FeeModelOriginal) (hx : 0 < s.X) (_hy : 0 < s.Y) (ha : 0 < a) :
    0 < s.X + a - a * FeeRate ∧
    (Trade s a).X = s.X + a ∧
    (Trade s a).Y = (s.X * s.Y) / (s.X + a - a * FeeRate) ∧
    (Trade s a).Y * (s.X + a - a * FeeRate) = s.X * s.Y ∧
    (Trade s a).FX = s.FX ∧ (Trade s a).FY = s.FY := by
  have hnet := net_amount_pos a ha
  have hd : 0 < s.X + a - a * FeeRate := by linarith
  have hd1 : s.X + (a - a * FeeRate) = s.X + a - a * FeeRate := by ring
  rw [Trade_original_pos s a hm ha]
  refine ⟨hd, ?_, ?_, ?_, rfl, rfl⟩
  · show s.X + (a - a * FeeRate) + a * FeeRate = s.X + a
    ring
  · show s.X * s.Y / (s.X + (a - a * FeeRate)) = _
    rw [hd1]
  · show s.X * s.Y / (s.X + (a - a * FeeRate)) * _ = _
    rw [hd1]
    exact div_mul_cancel₀ _ (ne_of_gt hd)

/-- Witness of C1 on the pool `NewSwap 10000 100000 FeeModelOriginal` with amount `100`. -/
theorem trade_original_positive_witness :
    (Trade (NewSwap 10000 100000 FeeModelOriginal) 100).X = 10000 + 100 ∧
    (Trade (NewSwap 10000 100000 FeeModelOriginal) 100).Y * (10000 + 100 - 100 * FeeRate)
      = 10000 * 100000 :=
  have h := trade_original_positive (NewSwap 10000 100000 FeeModelOriginal) 100 rfl
    (by norm_num [NewSwap]) (by norm_num [NewSwap]) (by norm_num)
  ⟨h.2.1, h.2.2.2.1⟩

/-- Counterexample to C2 as written: on `NewSwap 10000 100000 FeeModelLaterSeparate`
with amount `100` the reserve `Y` is not `y - (rawOut - fee)`; the four stated
equations do not hold together. -/
theorem trade_later_separate_stated_fails :
    ¬ ((Trade (NewSwap 10000 100000 FeeModelLaterSeparate) 100).X = 10000 + 100 ∧
       (Trade (NewSwap 10000 100000 FeeModelLaterSeparate) 100).Y
          = 100000 - ((100000 - 10000 * 100000 / (10000 + 100))
              - (100000 - 10000 * 100000 / (10000 + 100)) * FeeRate) ∧
       (Trade (NewSwap 10000 100000 FeeModelLaterSeparate) 100).FY
          = 0 + (100000 - 10000 * 100000 / (10000 + 100)) * FeeRate ∧
       (Trade (NewSwap 10000 100000 FeeModelLaterSeparate) 100).FX = 0) := by
  norm_num [Trade, NewSwap, FeeModelLaterSeparate, FeeModelOriginal, FeeModelSeparate, FeeRate]

/-- C2, amended. Later-Separate policy, positive trade: from positive reserves `x`, `y`
and an amount `a > 0`, with `k = x * y`, `rawOut = y - k / (x + a)` and
`fee = rawOut * FeeRate`, the division is by the positive `x + a`, and afterwards
`X = x + a`, `Y = y - rawOut` (the reserve gives up the whole raw output, that is
`Y = k / (x + a)`), `FY` grows by `fee` and `FX` is unchanged; it is the holding
`Y + FY` that decreases by the net output `rawOut - fee`. -/
theorem trade_later_separate_positive (s : Swap) (a : ℚ)
    (hm : s.Model = FeeModelLaterSeparate) (hx : 0 < s.X) (_hy : 0 < s.Y) (ha : 0 < a) :
    0 < s.X + a ∧
    (Trade s a).X = s.X + a ∧
    (Trade s a).Y = s.Y - (s.Y - s.X * s.Y / (s.X + a)) ∧
    (Trade s a).Y = s.X * s.Y / (s.X + a) ∧
    (Trade s a).FY = s.FY + (s.Y - s.X * s.Y / (s.X + a)) * FeeRate ∧
    (Trade s a).FX = s.FX ∧
    (Trade s a).Y + (Trade s a).FY
      = s.Y + s.FY - ((s.Y - s.X * s.Y / (s.X + a))
          - (s.Y - s.X * s.Y / (s.X + a)) * FeeRate) := by
  have hd : 0 < s.X + a := by linarith
  rw [Trade_later_pos s a hm ha]
  refine ⟨hd, rfl, rfl, ?_, rfl, rfl, ?_⟩
  · show s.Y - (s.Y - s.X * s.Y / (s.X + a)) = _
    ring
  · show s.Y - (s.Y - s.X * s.Y / (s.X + a))
        + (s.FY + (s.Y - s.X * s.Y / (s.X + a)) * FeeRate) = _
    ring

/-- Witness of the amended C2 on `NewSwap 10000 100000 FeeModelLaterSeparate` with
amount `100`. -/
theorem trade_later_separate_positive_witness :
    (Trade (NewSwap 10000 100000 FeeModelLaterSeparate) 100).X = 10000 + 100 ∧
    (Trade (NewSwap 10000 100000 FeeModelLaterSeparate) 100).Y
      = 10000 * 100000 / (10000 + 100) :=
  have h := trade_later_separate_positive (NewSwap 10000 100000 FeeModelLaterSeparate) 100 rfl
    (by norm_num [NewSwap]) (by norm_num [NewSwap]) (by norm_num)
  ⟨h.2.1, h.2.2.2.1⟩

/-- C3. Separate policy, positive trade: from positive reserves `x`, `y` and an amount
`a > 0`, the new `X = x + (a - a * FeeRate)` is positive, `Y = x * y / X` with the
product taken before the trade, `FX` grows by the fee `a * FeeRate` and `FY` is
unchanged. -/
theorem trade_separate_positive (s : Swap) (a : ℚ)
    (hm : s.Model = FeeModelSeparate) (hx : 0 < s.X) (_hy : 0 < s.Y) (ha : 0 < a) :
    0 < (Trade s a).X ∧
    (Trade s a).X = s.X + (a - a * FeeRate) ∧
    (Trade s a).Y = (s.X * s.Y) / (Trade s a).X ∧
    (Trade s a).FX = s.FX + a * FeeRate ∧
    (Trade s a).FY = s.FY := by
  have hnet := net_amount_pos a ha
  rw [Trade_separate_pos s a hm ha]
  refine ⟨?_, rfl, rfl, rfl, rfl⟩
  show 0 < s.X + (a - a * FeeRate)
  linarith

/-- Witness of C3 on `NewSwap 10000 100000 FeeModelSeparate` with amount `100`. -/
theorem trade_separate_positive_witness :
    (Trade (NewSwap 10000 100000 FeeModelSeparate) 100).X = 10000 + (100 - 100 * FeeRate) ∧
    (Trade (NewSwap 10000 100000 FeeModelSeparate) 100).FX = 0 + 100 * FeeRate :=
  have h := trade_separate_positive (NewSwap 10000 100000 FeeModelSeparate) 100 rfl
    (by norm_num [NewSwap]) (by norm_num [NewSwap]) (by norm_num)
  ⟨h.2.1, h.2.2.2.1⟩

/-! ## Mirror symmetry -/

/-- C4. Mirror symmetry of `Trade`: for every pool (whatever its policy tag and reserves)
and every `b > 0`, trading `-b` gives the mirror image of trading `b` on the mirrored
pool. -/
theorem trade_mirror (s : Swap) (b : ℚ) (hb : 0 < b) :
    Trade s (-b) = mirror (Trade (mirror s) b) := by
  have hneg : ¬ (0 : ℚ) < -b := by linarith
  have hms : (mirror s).Model = s.Model := rfl
  by_cases h1 : s.Model = FeeModelOriginal
  · rw [Trade_original_nonpos s _ h1 hneg, Trade_original_pos (mirror s) _ (hms.trans h1) hb]
    obtain ⟨m, x, y, ix, iy, fx, fy⟩ := s
    simp only [mirror, Swap.mk.injEq, true_and, and_true]
    constructor <;> ring
  · by_cases h2 : s.Model = FeeModelSeparate
    · rw [Trade_separate_nonpos s _ h2 hneg,
        Trade_separate_pos (mirror s) _ (hms.trans h2) hb]
      obtain ⟨m, x, y, ix, iy, fx, fy⟩ := s
      simp only [mirror, Swap.mk.injEq, true_and, and_true]
      refine ⟨?_, ?_, ?_⟩ <;> ring
    · by_cases h3 : s.Model = FeeModelLaterSeparate
      · rw [Trade_later_nonpos s _ h3 hneg, Trade_later_pos (mirror s) _ (hms.trans h3) hb]
        obtain ⟨m, x, y, ix, iy, fx, fy⟩ := s
        simp only [mirror, Swap.mk.injEq, true_and, and_true]
        refine ⟨?_, ?_, ?_⟩ <;> ring
      · rw [Trade_other s _ h1 h2 h3, Trade_other (mirror s) _ h1 h2 h3]
        rfl

/-- Witness of C4 on the Later-Separate pool `NewSwap 10000 100000` with `b = 100`. -/
theorem trade_mirror_witness :
    Trade (NewSwap 10000 100000 FeeModelLaterSeparate) (-100)
      = mirror (Trade (mirror (NewSwap 10000 100000 FeeModelLaterSeparate)) 100) :=
  trade_mirror (NewSwap 10000 100000 FeeModelLaterSeparate) 100 (by norm_num)

/-! ## The worked scenario -/

/-- Counterexample to C5 as written: in the scenario `NewSwap 10000 100000
FeeModelOriginal`, `Simulate [100]`, the final `Y` is not within one unit of the second
decimal of `99012.87`, and the returned `driftY` is not within one unit of the seventh
decimal of `-0.0098713`. -/
theorem simulate_scenario_stated_digits_fail :
    ¬ (99012.86 < (Simulate (NewSwap 10000 100000 FeeModelOriginal) [100] false).1.Y ∧
        (Simulate (NewSwap 10000 100000 FeeModelOriginal) [100] false).1.Y < 99012.88) ∧
    ¬ (-0.0098714 < (Simulate (NewSwap 10000 100000 FeeModelOriginal) [100] false).2.2 ∧
        (Simulate (NewSwap 10000 100000 FeeModelOriginal) [100] false).2.2 < -0.0098712) := by
  norm_num [Simulate, NewSwap, Trade, FeeModelOriginal, FeeRate]

/-- C5, amended. In the scenario `NewSwap 10000 100000 FeeModelOriginal`, `Simulate [100]`
leaves `X = 10100` and `Y = 10^9 / 10099.7`, returns `driftX = 0.01` exactly and
`driftY = (Y - 100000) / 100000`; to two decimals `Y` is `99012.84` and to seven
decimals `driftY` is `-0.0098716` (it lies between `-0.0098716` and `-0.0098715`). -/
theorem simulate_scenario :
    (Simulate (NewSwap 10000 100000 FeeModelOriginal) [100] false).1.X = 10100 ∧
    (Simulate (NewSwap 10000 100000 FeeModelOriginal) [100] false).1.Y = 10 ^ 9 / 10099.7 ∧
    (Simulate (NewSwap 10000 100000 FeeModelOriginal) [100] false).2.1 = 0.01 ∧
    (Simulate (NewSwap 10000 100000 FeeModelOriginal) [100] false).2.2
      = ((Simulate (NewSwap 10000 100000 FeeModelOriginal) [100] false).1.Y - 100000)
          / 100000 ∧
    (99012.84 ≤ (Simulate (NewSwap 10000 100000 FeeModelOriginal) [100] false).1.Y ∧
      (Simulate (NewSwap 10000 100000 FeeModelOriginal) [100] false).1.Y < 99012.85) ∧
    (-0.0098716 < (Simulate (NewSwap 10000 100000 FeeModelOriginal) [100] false).2.2 ∧
      (Simulate (NewSwap 10000 100000 FeeModelOriginal) [100] false).2.2 < -0.0098715) := by
  norm_num [Simulate, NewSwap, Trade, FeeModelOriginal, FeeRate]

/-! ## Drift under the Original policy -/

/-- Counterexample to C6 as written: the fresh Original pool `NewSwap 10000 100000` and
the one-trade sequence `[100]` return a negative `driftY`, so the two drifts are not both
non-negative. -/
theorem simulate_original_drift_negative :
    ¬ (0 ≤ (Simulate (NewSwap 10000 100000 FeeModelOriginal) [100] false).2.1 ∧
       0 ≤ (Simulate (NewSwap 10000 100000 FeeModelOriginal) [100] false).2.2) := by
  norm_num [Simulate, NewSwap, Trade, FeeModelOriginal, FeeRate]

/-- C6, amended. For a fresh Original pool with `x > 0`, `y > 0` and every trade sequence,
the pair `(driftX, driftY)` returned by `Simulate` is never negative in both components:
`driftX ≥ 0` or `driftY ≥ 0`, and indeed `(1 + driftX) * (1 + driftY) ≥ 1`, the reserve
product never falling below the initial one. -/
theorem simulate_original_drift (x y : ℚ) (trades : List ℚ) (hx : 0 < x) (hy : 0 < y) :
    (0 ≤ (Simulate (NewSwap x y FeeModelOriginal) trades false).2.1 ∨
      0 ≤ (Simulate (NewSwap x y FeeModelOriginal) trades false).2.2) ∧
    1 ≤ (1 + (Simulate (NewSwap x y FeeModelOriginal) trades false).2.1)
        * (1 + (Simulate (NewSwap x y FeeModelOriginal) trades false).2.2) := by
  obtain ⟨-, h2, h3, h4, h5, h6, h7, h8⟩ :=
    foldl_trade_original trades (NewSwap x y FeeModelOriginal) rfl hx hy
  simp only [Simulate]
  generalize List.foldl Trade (NewSwap x y FeeModelOriginal) trades = t at *
  rw [h2, h3, h4, h5]
  simp only [NewSwap] at *
  have hxy : 0 < x * y := mul_pos hx hy
  have e1 : 1 + (t.X + 0 - x) / x = t.X / x := by field_simp
  have e2 : 1 + (t.Y + 0 - y) / y = t.Y / y := by field_simp
  have hprod : 1 ≤ (1 + (t.X + 0 - x) / x) * (1 + (t.Y + 0 - y) / y) := by
    rw [e1, e2, div_mul_div_comm, le_div_iff₀ hxy]
    linarith
  refine ⟨?_, hprod⟩
  by_contra hcon
  push_neg at hcon
  obtain ⟨c1, c2⟩ := hcon
  have p1 : 0 < 1 + (t.X + 0 - x) / x := by rw [e1]; exact div_pos h6 hx
  have p2 : 0 < 1 + (t.Y + 0 - y) / y := by rw [e2]; exact div_pos h7 hy
  nlinarith

/-- Witness of the amended C6 on `NewSwap 10000 100000 FeeModelOriginal` with the
sequence `[100, -50]`. -/
theorem simulate_original_drift_witness :
    0 ≤ (Simulate (NewSwap 10000 100000 FeeModelOriginal) [100, -50] false).2.1 ∨
      0 ≤ (Simulate (NewSwap 10000 100000 FeeModelOriginal) [100, -50] false).2.2 :=
  (simulate_original_drift 10000 100000 [100, -50] (by norm_num) (by norm_num)).1

/-! ## The product of gross holdings after one trade -/

/-- Counterexample to C7 as written: on fresh pools `NewSwap 10000 100000` and amount
`100`, under each of the three policies the product `(X + FX) * (Y + FY)` after the
trade differs from the product `10000 * 100000` before it. -/
theorem trade_gross_product_not_conserved :
    ((Trade (NewSwap 10000 100000 FeeModelOriginal) 100).X
        + (Trade (NewSwap 10000 100000 FeeModelOriginal) 100).FX)
      * ((Trade (NewSwap 10000 100000 FeeModelOriginal) 100).Y
        + (Trade (NewSwap 10000 100000 FeeModelOriginal) 100).FY) ≠ 10000 * 100000 ∧
    ((Trade (NewSwap 10000 100000 FeeModelSeparate) 100).X
        + (Trade (NewSwap 10000 100000 FeeModelSeparate) 100).FX)
      * ((Trade (NewSwap 10000 100000 FeeModelSeparate) 100).Y
        + (Trade (NewSwap 10000 100000 FeeModelSeparate) 100).FY) ≠ 10000 * 100000 ∧
    ((Trade (NewSwap 10000 100000 FeeModelLaterSeparate) 100).X
        + (Trade (NewSwap 10000 100000 FeeModelLaterSeparate) 100).FX)
      * ((Trade (NewSwap 10000 100000 FeeModelLaterSeparate) 100).Y
        + (Trade (NewSwap 10000 100000 FeeModelLaterSeparate) 100).FY) ≠ 10000 * 100000 := by
  norm_num [Trade, NewSwap, FeeModelLaterSeparate, FeeModelOriginal, FeeModelSeparate, FeeRate]

/-- C7, amended. For each of the three policies, a fresh pool with positive reserves
`x`, `y` and an amount `a > 0`: after `Trade a` the product of gross holdings
`(X + FX) * (Y + FY)` is strictly greater than the product `k = x * y` before the
trade. Under Original and Separate it is `k * (x + a) / (x + a - a * FeeRate)`, stated
here cleared of the positive denominator; under Later-Separate it is
`k + FeeRate * a * y`. -/
theorem trade_gross_product (x y a : ℚ) (m : Int)
    (hm : m = FeeModelOriginal ∨ m = FeeModelSeparate ∨ m = FeeModelLaterSeparate)
    (hx : 0 < x) (hy : 0 < y) (ha : 0 < a) :
    x * y < ((Trade (NewSwap x y m) a).X + (Trade (NewSwap x y m) a).FX)
        * ((Trade (NewSwap x y m) a).Y + (Trade (NewSwap x y m) a).FY) ∧
    0 < x + a - a * FeeRate ∧
    (m = FeeModelOriginal ∨ m = FeeModelSeparate →
      ((Trade (NewSwap x y m) a).X + (Trade (NewSwap x y m) a).FX)
        * ((Trade (NewSwap x y m) a).Y + (Trade (NewSwap x y m) a).FY)
        * (x + a - a * FeeRate) = x * y * (x + a)) ∧
    (m = FeeModelLaterSeparate →
      ((Trade (NewSwap x y m) a).X + (Trade (NewSwap x y m) a).FX)
        * ((Trade (NewSwap x y m) a).Y + (Trade (NewSwap x y m) a).FY)
        = x * y + FeeRate * a * y) := by
  have hk : 0 < x * y := mul_pos hx hy
  have hf := FeeRate_pos
  have hnet := net_amount_pos a ha
  have hfee : 0 < a * FeeRate := mul_pos ha hf
  have hd : 0 < x + (a - a * FeeRate) := by linarith
  have hd1 : x + a - a * FeeRate = x + (a - a * FeeRate) := by ring
  have hxa : 0 < x + a := by linarith
  refine ⟨?_, by rw [hd1]; exact hd, ?_, ?_⟩
  · rcases hm with h | h | h
    · subst h
      rw [Trade_original_pos (NewSwap x y FeeModelOriginal) a rfl ha]
      simp only [NewSwap, add_zero]
      exact lt_add_mul_div _ _ _ hk hd hfee
    · subst h
      rw [Trade_separate_pos (NewSwap x y FeeModelSeparate) a rfl ha]
      simp only [NewSwap, add_zero, zero_add]
      exact lt_add_mul_div _ _ _ hk hd hfee
    · subst h
      rw [Trade_later_pos (NewSwap x y FeeModelLaterSeparate) a rfl ha]
      simp only [NewSwap, add_zero, zero_add]
      have e : (x + a) * (y - (y - x * y / (x + a)) + (y - x * y / (x + a)) * FeeRate)
          = x * y + FeeRate * a * y := by
        field_simp
        ring
      rw [e]
      have := mul_pos (mul_pos hf ha) hy
      linarith
  · intro h
    rcases h with h | h
    · subst h
      rw [Trade_original_pos (NewSwap x y FeeModelOriginal) a rfl ha]
      simp only [NewSwap, add_zero]
      rw [hd1]
      field_simp
      ring
    · subst h
      rw [Trade_separate_pos (NewSwap x y FeeModelSeparate) a rfl ha]
      simp only [NewSwap, add_zero, zero_add]
      rw [hd1]
      field_simp
      ring
  · intro h
    subst h
    rw [Trade_later_pos (NewSwap x y FeeModelLaterSeparate) a rfl ha]
    simp only [NewSwap, add_zero, zero_add]
    field_simp
    ring

/-- Witness of the amended C7 on the fresh Later-Separate pool `NewSwap 10000 100000`
with amount `100`. -/
theorem trade_gross_product_witness :
    (10000 : ℚ) * 100000
      < ((Trade (NewSwap 10000 100000 FeeModelLaterSeparate) 100).X
          + (Trade (NewSwap 10000 100000 FeeModelLaterSeparate) 100).FX)
        * ((Trade (NewSwap 10000 100000 FeeModelLaterSeparate) 100).Y
          + (Trade (NewSwap 10000 100000 FeeModelLaterSeparate) 100).FY) :=
  (trade_gross_product 10000 100000 100 FeeModelLaterSeparate (Or.inr (Or.inr rfl))
    (by norm_num) (by norm_num) (by norm_num)).1

/-! ## Empty inputs and the baseline against itself -/

/-- C8. No trades, no drift: for every policy tag and nonzero `x`, `y`, `Simulate` on
the empty sequence leaves the fresh pool as it is and returns `(0, 0)`. -/
theorem simulate_nil (x y : ℚ) (m : Int) (verbose : Bool) (_hx : x ≠ 0) (_hy : y ≠ 0) :
    Simulate (NewSwap x y m) [] verbose = (NewSwap x y m, 0, 0) := by
  simp [Simulate, NewSwap]

/-- Witness of C8 on `NewSwap 10000 100000 FeeModelSeparate`. -/
theorem simulate_nil_witness :
    Simulate (NewSwap 10000 100000 FeeModelSeparate) [] false
      = (NewSwap 10000 100000 FeeModelSeparate, 0, 0) :=
  simulate_nil 10000 100000 FeeModelSeparate false (by norm_num) (by norm_num)

/-- One iteration of the loop with the baseline as candidate: the three win counters
advance and the fail counter stays. -/
theorem benchmarkStep_original (x y : ℚ) (c : Counters) (trades : List ℚ) :
    benchmarkStep x y FeeModelOriginal c trades
      = ⟨c.winX + 1, c.winY + 1, c.winXY + 1, c.failXY⟩ := by
  simp [benchmarkStep]

/-- The loop with the baseline as candidate, from any counters. -/
theorem foldl_benchmarkStep_original (x y : ℚ) (group : List (List ℚ)) (c : Counters) :
    group.foldl (benchmarkStep x y FeeModelOriginal) c
      = ⟨c.winX + group.length, c.winY + group.length, c.winXY + group.length,
          c.failXY⟩ := by
  induction group generalizing c with
  | nil => simp
  | cons t rest ih =>
    rw [List.foldl_cons, ih, benchmarkStep_original]
    simp only [List.length_cons, Nat.cast_add, Nat.cast_one, Counters.mk.injEq, and_true]
    refine ⟨?_, ?_, ?_⟩ <;> ring

/-- Ties count as wins, over exact arithmetic: with positive initial reserves and the
candidate equal to the baseline `FeeModelOriginal`, `Benchmark` ends with
`winX = winY = winXY` the number of sequences of the batch and `failXY = 0`. -/
theorem benchmark_baseline_ties (x y : ℚ) (group : List (List ℚ))
    (_hx : 0 < x) (_hy : 0 < y) :
    (Benchmark x y group FeeModelOriginal).winX = group.length ∧
    (Benchmark x y group FeeModelOriginal).winY = group.length ∧
    (Benchmark x y group FeeModelOriginal).winXY = group.length ∧
    (Benchmark x y group FeeModelOriginal).failXY = 0 := by
  simp [Benchmark, foldl_benchmarkStep_original]

/-- The exact-arithmetic tally on the reserves `10000`, `100000` and a batch of two
sequences. -/
theorem benchmark_baseline_ties_witness :
    (Benchmark 10000 100000 [[100], [-5, 3]] FeeModelOriginal).winX = 2 ∧
    (Benchmark 10000 100000 [[100], [-5, 3]] FeeModelOriginal).winY = 2 ∧
    (Benchmark 10000 100000 [[100], [-5, 3]] FeeModelOriginal).winXY = 2 ∧
    (Benchmark 10000 100000 [[100], [-5, 3]] FeeModelOriginal).failXY = 0 :=
  benchmark_baseline_ties 10000 100000 [[100], [-5, 3]] (by norm_num) (by norm_num)

/-- C10. On an empty batch, whatever the reserves and the candidate tag, `Benchmark`
ends with all four counters zero. -/
theorem benchmark_nil (x y : ℚ) (m : Int) :
    (Benchmark x y [] m).winX = 0 ∧ (Benchmark x y [] m).winY = 0 ∧
    (Benchmark x y [] m).winXY = 0 ∧ (Benchmark x y [] m).failXY = 0 :=
  ⟨rfl, rfl, rfl, rfl⟩

/-! ## What a trade never touches -/

/-- A trade leaves the tag and the initial reserves of any pool as they are. -/
theorem Trade_frame (s : Swap) (a : ℚ) :
    (Trade s a).Model = s.Model ∧ (Trade s a).IX = s.IX ∧ (Trade s a).IY = s.IY := by
  simp only [Trade]
  split_ifs <;> exact ⟨rfl, rfl, rfl⟩

/-- A sequence of trades leaves the tag and the initial reserves as they are. -/
theorem foldl_Trade_frame (trades : List ℚ) (s : Swap) :
    (trades.foldl Trade s).Model = s.Model ∧ (trades.foldl Trade s).IX = s.IX ∧
    (trades.foldl Trade s).IY = s.IY := by
  induction trades generalizing s with
  | nil => exact ⟨rfl, rfl, rfl⟩
  | cons a rest ih =>
    obtain ⟨h1, h2, h3⟩ := Trade_frame s a
    obtain ⟨g1, g2, g3⟩ := ih (Trade s a)
    rw [List.foldl_cons]
    exact ⟨g1.trans h1, g2.trans h2, g3.trans h3⟩

/-- An Original-policy trade of any amount, on any pool, leaves both fee buckets. -/
theorem Trade_original_fees (s : Swap) (a : ℚ) (hm : s.Model = FeeModelOriginal) :
    (Trade s a).FX = s.FX ∧ (Trade s a).FY = s.FY := by
  by_cases ha : 0 < a
  · rw [Trade_original_pos s a hm ha]
    exact ⟨rfl, rfl⟩
  · rw [Trade_original_nonpos s a hm ha]
    exact ⟨rfl, rfl⟩

/-- A sequence of Original-policy trades, on any pool, leaves both fee buckets. -/
theorem foldl_Trade_original_fees (trades : List ℚ) (s : Swap)
    (hm : s.Model = FeeModelOriginal) :
    (trades.foldl Trade s).FX = s.FX ∧ (trades.foldl Trade s).FY = s.FY := by
  induction trades generalizing s with
  | nil => exact ⟨rfl, rfl⟩
  | cons a rest ih =>
    obtain ⟨h1, h2⟩ := Trade_original_fees s a hm
    obtain ⟨g1, g2⟩ := ih (Trade s a) ((Trade_frame s a).1.trans hm)
    rw [List.foldl_cons]
    exact ⟨g1.trans h1, g2.trans h2⟩

/-- C12. Under the Original policy the fee buckets stay zero: for every pool built by
`NewSwap x y FeeModelOriginal`, whatever `x` and `y`, and every trade sequence, after
the whole sequence `FX = 0` and `FY = 0`. -/
theorem original_fee_buckets_zero (x y : ℚ) (trades : List ℚ) :
    (trades.foldl Trade (NewSwap x y FeeModelOriginal)).FX = 0 ∧
    (trades.foldl Trade (NewSwap x y FeeModelOriginal)).FY = 0 ∧
    (Simulate (NewSwap x y FeeModelOriginal) trades false).1.FX = 0 ∧
    (Simulate (NewSwap x y FeeModelOriginal) trades false).1.FY = 0 := by
  obtain ⟨h1, h2⟩ := foldl_Trade_original_fees trades (NewSwap x y FeeModelOriginal) rfl
  exact ⟨h1, h2, h1, h2⟩

/-- C13. Initial reserves and policy are immutable: `Trade` with any amount and
`Simulate` with any sequence leave `IX`, `IY` and `Model` of any pool as they were, and
`NewSwap x y m` sets `IX = X = x`, `IY = Y = y`, `Model = m` and `FX = FY = 0`. -/
theorem initial_fields_immutable (s : Swap) (a : ℚ) (trades : List ℚ) (verbose : Bool)
    (x y : ℚ) (m : Int) :
    ((Trade s a).IX = s.IX ∧ (Trade s a).IY = s.IY ∧ (Trade s a).Model = s.Model) ∧
    ((Simulate s trades verbose).1.IX = s.IX ∧ (Simulate s trades verbose).1.IY = s.IY ∧
      (Simulate s trades verbose).1.Model = s.Model) ∧
    ((NewSwap x y m).IX = x ∧ (NewSwap x y m).X = x ∧ (NewSwap x y m).IY = y ∧
      (NewSwap x y m).Y = y ∧ (NewSwap x y m).Model = m ∧ (NewSwap x y m).FX = 0 ∧
      (NewSwap x y m).FY = 0) := by
  obtain ⟨h1, h2, h3⟩ := Trade_frame s a
  obtain ⟨g1, g2, g3⟩ := foldl_Trade_frame trades s
  exact ⟨⟨h2, h3, h1⟩, ⟨g2, g3, g1⟩, rfl, rfl, rfl, rfl, rfl, rfl, rfl⟩

/-! ## One trade from positive reserves, under every policy -/

/-- One Separate-policy trade of any amount, from positive reserves: both reserves stay
positive, neither fee bucket decreases and the reserve product is kept. -/
theorem trade_separate_step (s : Swap) (a : ℚ) (hm : s.Model = FeeModelSeparate)
    (hx : 0 < s.X) (hy : 0 < s.Y) :
    0 < (Trade s a).X ∧ 0 < (Trade s a).Y ∧
    s.FX ≤ (Trade s a).FX ∧ s.FY ≤ (Trade s a).FY ∧
    (Trade s a).X * (Trade s a).Y = s.X * s.Y := by
  have hk : 0 < s.X * s.Y := mul_pos hx hy
  have hf := FeeRate_pos
  have hf1 := FeeRate_lt_one
  by_cases ha : 0 < a
  · have hnet := net_amount_pos a ha
    have hfee : 0 < a * FeeRate := mul_pos ha hf
    have hd : 0 < s.X + (a - a * FeeRate) := by linarith
    rw [Trade_separate_pos s a hm ha]
    refine ⟨hd, div_pos hk hd, ?_, le_refl _, ?_⟩
    · show s.FX ≤ s.FX + a * FeeRate
      linarith
    · show (s.X + (a - a * FeeRate)) * (s.X * s.Y / (s.X + (a - a * FeeRate))) = s.X * s.Y
      exact mul_div_cancel₀ _ (ne_of_gt hd)
  · have ha0 : a ≤ 0 := not_lt.mp ha
    have hfee : 0 ≤ -(a * FeeRate) := by
      have := mul_nonneg (neg_nonneg.mpr ha0) hf.le
      linarith
    have hnet : 0 ≤ -a - -(a * FeeRate) := by
      have h1 : -a - -(a * FeeRate) = (-a) * (1 - FeeRate) := by ring
      rw [h1]
      exact mul_nonneg (neg_nonneg.mpr ha0) (by linarith)
    have hd : 0 < s.Y + (-a - -(a * FeeRate)) := by linarith
    rw [Trade_separate_nonpos s a hm ha]
    refine ⟨div_pos hk hd, hd, le_refl _, ?_, ?_⟩
    · show s.FY ≤ s.FY + -(a * FeeRate)
      linarith
    · show s.X * s.Y / (s.Y + (-a - -(a * FeeRate))) * (s.Y + (-a - -(a * FeeRate)))
          = s.X * s.Y
      exact div_mul_cancel₀ _ (ne_of_gt hd)

/-- One Later-Separate trade of any amount, from positive reserves: both reserves stay
positive, neither fee bucket decreases and the reserve product is kept. -/
theorem trade_later_step (s : Swap) (a : ℚ) (hm : s.Model = FeeModelLaterSeparate)
    (hx : 0 < s.X) (hy : 0 < s.Y) :
    0 < (Trade s a).X ∧ 0 < (Trade s a).Y ∧
    s.FX ≤ (Trade s a).FX ∧ s.FY ≤ (Trade s a).FY ∧
    (Trade s a).X * (Trade s a).Y = s.X * s.Y := by
  have hk : 0 < s.X * s.Y := mul_pos hx hy
  have hf := FeeRate_pos
  by_cases ha : 0 < a
  · have hd : 0 < s.X + a := by linarith
    have hout : 0 ≤ s.Y - s.X * s.Y / (s.X + a) := by
      have h1 : s.X * s.Y / (s.X + a) ≤ s.Y := by
        rw [div_le_iff₀ hd]
        have := mul_pos hy ha
        linarith
      linarith
    have hY : s.Y - (s.Y - s.X * s.Y / (s.X + a)) = s.X * s.Y / (s.X + a) := by ring
    rw [Trade_later_pos s a hm ha]
    refine ⟨hd, ?_, le_refl _, ?_, ?_⟩
    · show 0 < s.Y - (s.Y - s.X * s.Y / (s.X + a))
      rw [hY]
      exact div_pos hk hd
    · show s.FY ≤ s.FY + (s.Y - s.X * s.Y / (s.X + a)) * FeeRate
      have := mul_nonneg hout hf.le
      linarith
    · show (s.X + a) * (s.Y - (s.Y - s.X * s.Y / (s.X + a))) = s.X * s.Y
      rw [hY]
      exact mul_div_cancel₀ _ (ne_of_gt hd)
  · have ha0 : a ≤ 0 := not_lt.mp ha
    have hd : 0 < s.Y - a := by linarith
    have hout : 0 ≤ s.X - s.X * s.Y / (s.Y - a) := by
      have h1 : s.X * s.Y / (s.Y - a) ≤ s.X := by
        rw [div_le_iff₀ hd]
        have := mul_nonneg hx.le (neg_nonneg.mpr ha0)
        linarith
      linarith
    have hX : s.X - (s.X - s.X * s.Y / (s.Y - a)) = s.X * s.Y / (s.Y - a) := by ring
    rw [Trade_later_nonpos s a hm ha]
    refine ⟨?_, hd, ?_, le_refl _, ?_⟩
    · show 0 < s.X - (s.X - s.X * s.Y / (s.Y - a))
      rw [hX]
      exact div_pos hk hd
    · show s.FX ≤ s.FX + (s.X - s.X * s.Y / (s.Y - a)) * FeeRate
      have := mul_nonneg hout hf.le
      linarith
    · show (s.X - (s.X - s.X * s.Y / (s.Y - a))) * (s.Y - a) = s.X * s.Y
      rw [hX]
      exact div_mul_cancel₀ _ (ne_of_gt hd)

/-- One trade of any amount under any tag, from positive reserves: both reserves stay
positive and neither fee bucket decreases. -/
theorem trade_step (s : Swap) (a : ℚ) (hx : 0 < s.X) (hy : 0 < s.Y) :
    0 < (Trade s a).X ∧ 0 < (Trade s a).Y ∧
    s.FX ≤ (Trade s a).FX ∧ s.FY ≤ (Trade s a).FY := by
  by_cases h1 : s.Model = FeeModelOriginal
  · obtain ⟨-, -, -, e4, e5, e6, e7, -⟩ := trade_original_step s a h1 hx hy
    exact ⟨e6, e7, le_of_eq e4.symm, le_of_eq e5.symm⟩
  · by_cases h2 : s.Model = FeeModelSeparate
    · obtain ⟨e1, e2, e3, e4, -⟩ := trade_separate_step s a h2 hx hy
      exact ⟨e1, e2, e3, e4⟩
    · by_cases h3 : s.Model = FeeModelLaterSeparate
      · obtain ⟨e1, e2, e3, e4, -⟩ := trade_later_step s a h3 hx hy
        exact ⟨e1, e2, e3, e4⟩
      · rw [Trade_other s a h1 h2 h3]
        exact ⟨hx, hy, le_refl _, le_refl _⟩

/-- Any sequence of trades under any tag, from positive reserves: both reserves stay
positive and neither fee bucket decreases. -/
theorem foldl_trade_step (trades : List ℚ) (s : Swap) (hx : 0 < s.X) (hy : 0 < s.Y) :
    0 < (trades.foldl Trade s).X ∧ 0 < (trades.foldl Trade s).Y ∧
    s.FX ≤ (trades.foldl Trade s).FX ∧ s.FY ≤ (trades.foldl Trade s).FY := by
  induction trades generalizing s with
  | nil => exact ⟨hx, hy, le_refl _, le_refl _⟩
  | cons a rest ih =>
    obtain ⟨h1, h2, h3, h4⟩ := trade_step s a hx hy
    obtain ⟨g1, g2, g3, g4⟩ := ih (Trade s a) h1 h2
    rw [List.foldl_cons]
    exact ⟨g1, g2, le_trans h3 g3, le_trans h4 g4⟩

/-- Any sequence of trades under one of the two separate policies, from positive
reserves: the reserve product is kept. -/
theorem foldl_trade_product (trades : List ℚ) (s : Swap)
    (hm : s.Model = FeeModelSeparate ∨ s.Model = FeeModelLaterSeparate)
    (hx : 0 < s.X) (hy : 0 < s.Y) :
    (trades.foldl Trade s).X * (trades.foldl Trade s).Y = s.X * s.Y := by
  induction trades generalizing s with
  | nil => rfl
  | cons a rest ih =>
    have hstep : 0 < (Trade s a).X ∧ 0 < (Trade s a).Y ∧
        (Trade s a).X * (Trade s a).Y = s.X * s.Y := by
      rcases hm with h | h
      · obtain ⟨e1, e2, -, -, e5⟩ := trade_separate_step s a h hx hy
        exact ⟨e1, e2, e5⟩
      · obtain ⟨e1, e2, -, -, e5⟩ := trade_later_step s a h hx hy
        exact ⟨e1, e2, e5⟩
    obtain ⟨e1, e2, e3⟩ := hstep
    have hm1 : (Trade s a).Model = FeeModelSeparate ∨
        (Trade s a).Model = FeeModelLaterSeparate := by
      rw [(Trade_frame s a).1]
      exact hm
    rw [List.foldl_cons, ih (Trade s a) hm1 e1 e2, e3]

/-- Under the three policies and from positive reserves, the division of a trade has a
positive divisor, and the reserve the trade recomputes is the product over it. -/
theorem tradeDivisor_pos (s : Swap) (a : ℚ)
    (hm : s.Model = FeeModelOriginal ∨ s.Model = FeeModelSeparate ∨
      s.Model = FeeModelLaterSeparate)
    (hx : 0 < s.X) (hy : 0 < s.Y) :
    ∃ d, tradeDivisor s a = some d ∧ 0 < d ∧
      (0 < a → (Trade s a).Y = s.X * s.Y / d) ∧
      (¬ 0 < a → (Trade s a).X = s.X * s.Y / d) := by
  have hf := FeeRate_pos
  have hf1 := FeeRate_lt_one
  have hpos : 0 < a → 0 < s.X + (a - a * FeeRate) := fun ha => by
    have := net_amount_pos a ha
    linarith
  have hneg : ¬ 0 < a → 0 < s.Y + (-a - -(a * FeeRate)) := fun ha => by
    have ha0 : a ≤ 0 := not_lt.mp ha
    have h1 : -a - -(a * FeeRate) = (-a) * (1 - FeeRate) := by ring
    have h2 : 0 ≤ (-a) * (1 - FeeRate) := mul_nonneg (neg_nonneg.mpr ha0) (by linarith)
    linarith
  rcases hm with h | h | h
  · by_cases ha : 0 < a
    · refine ⟨s.X + (a - a * FeeRate), ?_, hpos ha, fun _ => ?_, fun c => absurd ha c⟩
      · simp only [tradeDivisor, h, true_or, if_true, ha, gt_iff_lt]
      · rw [Trade_original_pos s a h ha]
    · refine ⟨s.Y + (-a - -(a * FeeRate)), ?_, hneg ha, fun c => absurd c ha, fun _ => ?_⟩
      · simp only [tradeDivisor, h, true_or, if_true, ha, if_false, gt_iff_lt]
      · rw [Trade_original_nonpos s a h ha]
  · by_cases ha : 0 < a
    · refine ⟨s.X + (a - a * FeeRate), ?_, hpos ha, fun _ => ?_, fun c => absurd ha c⟩
      · simp only [tradeDivisor, h, or_true, if_true, ha, gt_iff_lt]
      · rw [Trade_separate_pos s a h ha]
    · refine ⟨s.Y + (-a - -(a * FeeRate)), ?_, hneg ha, fun c => absurd c ha, fun _ => ?_⟩
      · simp only [tradeDivisor, h, or_true, if_true, ha, if_false, gt_iff_lt]
      · rw [Trade_separate_nonpos s a h ha]
  · by_cases ha : 0 < a
    · refine ⟨s.X + a, ?_, by linarith, fun _ => ?_, fun c => absurd ha c⟩
      · simp only [tradeDivisor, h, later_ne_original, later_ne_separate, or_self, if_false,
          if_true, ha, gt_iff_lt]
      · rw [Trade_later_pos s a h ha]
        show s.Y - (s.Y - s.X * s.Y / (s.X + a)) = s.X * s.Y / (s.X + a)
        ring
    · have ha0 : a ≤ 0 := not_lt.mp ha
      refine ⟨s.Y - a, ?_, by linarith, fun c => absurd c ha, fun _ => ?_⟩
      · simp only [tradeDivisor, h, later_ne_original, later_ne_separate, or_self, if_false,
          if_true, ha, gt_iff_lt]
      · rw [Trade_later_nonpos s a h ha]
        show s.X - (s.X - s.X * s.Y / (s.Y - a)) = s.X * s.Y / (s.Y - a)
        ring

/-! ## Invariants along a trade sequence -/

/-- C11, amended. Over exact arithmetic (rationals in place of `float64`), fees are
non-negative and only accumulate: for a pool under any tag with
`X > 0`, `Y > 0`, `FX ≥ 0`, `FY ≥ 0` and any amount `a` of any sign, after `Trade a`
neither bucket has decreased, so both are still non-negative; and the same holds for the
pool reached after any sequence `pre` of trades (a prefix of a longer sequence) and the
next trade `a`. A fresh pool with positive reserves is such a pool. -/
theorem fees_accumulate (s : Swap) (pre : List ℚ) (a : ℚ)
    (hx : 0 < s.X) (hy : 0 < s.Y) (hfx : 0 ≤ s.FX) (hfy : 0 ≤ s.FY) :
    (s.FX ≤ (Trade s a).FX ∧ s.FY ≤ (Trade s a).FY ∧
      0 ≤ (Trade s a).FX ∧ 0 ≤ (Trade s a).FY) ∧
    (0 ≤ (pre.foldl Trade s).FX ∧ 0 ≤ (pre.foldl Trade s).FY ∧
      (pre.foldl Trade s).FX ≤ (Trade (pre.foldl Trade s) a).FX ∧
      (pre.foldl Trade s).FY ≤ (Trade (pre.foldl Trade s) a).FY) := by
  obtain ⟨-, -, h3, h4⟩ := trade_step s a hx hy
  obtain ⟨g1, g2, g3, g4⟩ := foldl_trade_step pre s hx hy
  obtain ⟨-, -, k3, k4⟩ := trade_step (pre.foldl Trade s) a g1 g2
  exact ⟨⟨h3, h4, le_trans hfx h3, le_trans hfy h4⟩,
    ⟨le_trans hfx g3, le_trans hfy g4, k3, k4⟩⟩

/-- Witness of the amended C11 on the fresh Later-Separate pool `NewSwap 10000 100000`,
the prefix `[100, -50]` and the next amount `-30`. -/
theorem fees_accumulate_witness :
    0 ≤ ([100, -50].foldl Trade (NewSwap 10000 100000 FeeModelLaterSeparate)).FX ∧
    0 ≤ ([100, -50].foldl Trade (NewSwap 10000 100000 FeeModelLaterSeparate)).FY ∧
    ([100, -50].foldl Trade (NewSwap 10000 100000 FeeModelLaterSeparate)).FX
      ≤ (Trade ([100, -50].foldl Trade (NewSwap 10000 100000 FeeModelLaterSeparate))
          (-30)).FX ∧
    ([100, -50].foldl Trade (NewSwap 10000 100000 FeeModelLaterSeparate)).FY
      ≤ (Trade ([100, -50].foldl Trade (NewSwap 10000 100000 FeeModelLaterSeparate))
          (-30)).FY :=
  (fees_accumulate (NewSwap 10000 100000 FeeModelLaterSeparate) [100, -50] (-30)
    (by norm_num [NewSwap]) (by norm_num [NewSwap]) (by norm_num [NewSwap])
    (by norm_num [NewSwap])).2

/-- C16. Reserves can never be drained: under each of the three policies, from `X > 0`
and `Y > 0` and for any amount `a`, after `Trade a` both reserves are still positive;
so they are positive after any sequence `pre` of trades, and the division performed by
the next trade `a` has a positive divisor `d`, the recomputed reserve being the product
over `d`. -/
theorem reserves_stay_positive (s : Swap) (pre : List ℚ) (a : ℚ)
    (hm : s.Model = FeeModelOriginal ∨ s.Model = FeeModelSeparate ∨
      s.Model = FeeModelLaterSeparate)
    (hx : 0 < s.X) (hy : 0 < s.Y) :
    (0 < (Trade s a).X ∧ 0 < (Trade s a).Y) ∧
    (0 < (pre.foldl Trade s).X ∧ 0 < (pre.foldl Trade s).Y) ∧
    (∃ d, tradeDivisor (pre.foldl Trade s) a = some d ∧ 0 < d ∧
      (0 < a → (Trade (pre.foldl Trade s) a).Y
        = (pre.foldl Trade s).X * (pre.foldl Trade s).Y / d) ∧
      (¬ 0 < a → (Trade (pre.foldl Trade s) a).X
        = (pre.foldl Trade s).X * (pre.foldl Trade s).Y / d)) := by
  obtain ⟨h1, h2, -, -⟩ := trade_step s a hx hy
  obtain ⟨g1, g2, -, -⟩ := foldl_trade_step pre s hx hy
  have hm1 : (pre.foldl Trade s).Model = FeeModelOriginal ∨
      (pre.foldl Trade s).Model = FeeModelSeparate ∨
      (pre.foldl Trade s).Model = FeeModelLaterSeparate := by
    rw [(foldl_Trade_frame pre s).1]
    exact hm
  exact ⟨⟨h1, h2⟩, ⟨g1, g2⟩, tradeDivisor_pos (pre.foldl Trade s) a hm1 g1 g2⟩

/-- Witness of C16 on the fresh Original pool `NewSwap 10000 100000`, the prefix
`[100, -200000]` and the next amount `-1000000`. -/
theorem reserves_stay_positive_witness :
    0 < ([100, -200000].foldl Trade (NewSwap 10000 100000 FeeModelOriginal)).X ∧
    0 < ([100, -200000].foldl Trade (NewSwap 10000 100000 FeeModelOriginal)).Y :=
  (reserves_stay_positive (NewSwap 10000 100000 FeeModelOriginal) [100, -200000]
    (-1000000) (Or.inl rfl) (by norm_num [NewSwap]) (by norm_num [NewSwap])).2.1

/-- C17, amended. Constant product under the two separate policies, over exact
arithmetic (rationals in place of `float64`): under `FeeModelSeparate`
and `FeeModelLaterSeparate`, from `X > 0`, `Y > 0` and for any amount `a`, the reserve
product after `Trade a` is the product before; so it is kept along any trade sequence,
and for a fresh pool with positive reserves `X * Y` stays `IX * IY`. -/
theorem separate_constant_product (s : Swap) (trades : List ℚ) (a : ℚ)
    (hm : s.Model = FeeModelSeparate ∨ s.Model = FeeModelLaterSeparate)
    (hx : 0 < s.X) (hy : 0 < s.Y) :
    (Trade s a).X * (Trade s a).Y = s.X * s.Y ∧
    (trades.foldl Trade s).X * (trades.foldl Trade s).Y = s.X * s.Y ∧
    (s.X = s.IX → s.Y = s.IY →
      (trades.foldl Trade s).X * (trades.foldl Trade s).Y
        = (trades.foldl Trade s).IX * (trades.foldl Trade s).IY) := by
  have h1 : (Trade s a).X * (Trade s a).Y = s.X * s.Y := by
    rcases hm with h | h
    · exact (trade_separate_step s a h hx hy).2.2.2.2
    · exact (trade_later_step s a h hx hy).2.2.2.2
  have h2 := foldl_trade_product trades s hm hx hy
  obtain ⟨-, g2, g3⟩ := foldl_Trade_frame trades s
  refine ⟨h1, h2, fun ex ey => ?_⟩
  rw [h2, g2, g3, ex, ey]

/-- Witness of the amended C17 on the fresh Separate pool `NewSwap 10000 100000` with the
sequence `[100, -50, 7]`. -/
theorem separate_constant_product_witness :
    ([100, -50, 7].foldl Trade (NewSwap 10000 100000 FeeModelSeparate)).X
      * ([100, -50, 7].foldl Trade (NewSwap 10000 100000 FeeModelSeparate)).Y
      = ([100, -50, 7].foldl Trade (NewSwap 10000 100000 FeeModelSeparate)).IX
        * ([100, -50, 7].foldl Trade (NewSwap 10000 100000 FeeModelSeparate)).IY :=
  (separate_constant_product (NewSwap 10000 100000 FeeModelSeparate) [100, -50, 7] 0
    (Or.inl rfl) (by norm_num [NewSwap]) (by norm_num [NewSwap])).2.2 rfl rfl

/-! ## The policies compared on a single trade -/

/-- On one positive trade from fresh pools with positive reserves, Later-Separate and
Original return the same `driftX`, Later-Separate a strictly greater `driftY`, and the
holdings `Y + FY` differ by the stated amount. -/
theorem later_vs_original_single (x y a : ℚ) (hx : 0 < x) (hy : 0 < y) (ha : 0 < a) :
    (Simulate (NewSwap x y FeeModelLaterSeparate) [a] false).2.1
      = (Simulate (NewSwap x y FeeModelOriginal) [a] false).2.1 ∧
    (Simulate (NewSwap x y FeeModelOriginal) [a] false).2.2
      < (Simulate (NewSwap x y FeeModelLaterSeparate) [a] false).2.2 ∧
    ((Trade (NewSwap x y FeeModelLaterSeparate) a).Y
        + (Trade (NewSwap x y FeeModelLaterSeparate) a).FY)
      - ((Trade (NewSwap x y FeeModelOriginal) a).Y
        + (Trade (NewSwap x y FeeModelOriginal) a).FY)
      = y * FeeRate * (1 - FeeRate) * a ^ 2 / ((x + a) * (x + a - a * FeeRate)) := by
  have hf := FeeRate_pos
  have hf1 := FeeRate_lt_one
  have hnet := net_amount_pos a ha
  have hd : 0 < x + (a - a * FeeRate) := by linarith
  have hd1 : x + a - a * FeeRate = x + (a - a * FeeRate) := by ring
  have hxa : 0 < x + a := by linarith
  have hd0 : x + (a - a * FeeRate) ≠ 0 := ne_of_gt hd
  have hxa0 : x + a ≠ 0 := ne_of_gt hxa
  have hgap : (y - (y - x * y / (x + a)) + (0 + (y - x * y / (x + a)) * FeeRate))
      - (x * y / (x + (a - a * FeeRate)) + 0)
      = y * FeeRate * (1 - FeeRate) * a ^ 2 / ((x + a) * (x + (a - a * FeeRate))) := by
    field_simp
    ring
  have hgap_pos : 0 < y * FeeRate * (1 - FeeRate) * a ^ 2
      / ((x + a) * (x + (a - a * FeeRate))) := by
    apply div_pos
    · exact mul_pos (mul_pos (mul_pos hy hf) (by linarith)) (pow_pos ha 2)
    · exact mul_pos hxa hd
  simp only [Simulate, List.foldl_cons, List.foldl_nil]
  rw [Trade_later_pos (NewSwap x y FeeModelLaterSeparate) a rfl ha,
    Trade_original_pos (NewSwap x y FeeModelOriginal) a rfl ha]
  simp only [NewSwap]
  refine ⟨?_, ?_, ?_⟩
  · congr 1
    ring
  · rw [div_lt_div_iff_of_pos_right hy]
    linarith
  · rw [hd1]
    exact hgap

/-- One iteration of the loop with the Later-Separate candidate on a sequence of one
positive trade: the three win counters advance. -/
theorem benchmarkStep_later_single (x y b : ℚ) (c : Counters) (hx : 0 < x) (hy : 0 < y)
    (hb : 0 < b) :
    benchmarkStep x y FeeModelLaterSeparate c [b]
      = ⟨c.winX + 1, c.winY + 1, c.winXY + 1, c.failXY⟩ := by
  obtain ⟨h1, h2, -⟩ := later_vs_original_single x y b hx hy hb
  simp only [benchmarkStep]
  have e1 : (Simulate (NewSwap x y FeeModelLaterSeparate) [b] false).2.1
      ≥ (Simulate (NewSwap x y FeeModelOriginal) [b] false).2.1 := le_of_eq h1.symm
  have e2 : (Simulate (NewSwap x y FeeModelLaterSeparate) [b] false).2.2
      ≥ (Simulate (NewSwap x y FeeModelOriginal) [b] false).2.2 := le_of_lt h2
  have e3 : ¬ (Simulate (NewSwap x y FeeModelLaterSeparate) [b] false).2.2
      < (Simulate (NewSwap x y FeeModelOriginal) [b] false).2.2 := not_lt.mpr e2
  simp only [e1, e2, e3, and_self, and_false, if_true, if_false]

/-- The loop with the Later-Separate candidate over single positive-trade sequences,
from any counters. -/
theorem foldl_benchmarkStep_later_single (x y : ℚ) (group : List (List ℚ)) (c : Counters)
    (hx : 0 < x) (hy : 0 < y) (hg : ∀ t ∈ group, ∃ b, 0 < b ∧ t = [b]) :
    group.foldl (benchmarkStep x y FeeModelLaterSeparate) c
      = ⟨c.winX + group.length, c.winY + group.length, c.winXY + group.length,
          c.failXY⟩ := by
  induction group generalizing c with
  | nil => simp
  | cons t rest ih =>
    obtain ⟨b, hb, rfl⟩ := hg t (List.mem_cons_self _ _)
    rw [List.foldl_cons, ih _ (fun u hu => hg u (List.mem_cons_of_mem _ hu)),
      benchmarkStep_later_single x y b c hx hy hb]
    simp only [List.length_cons, Nat.cast_add, Nat.cast_one, Counters.mk.injEq, and_true]
    refine ⟨?_, ?_, ?_⟩ <;> ring

/-- C18, amended. Later-Separate dominates Original on a single trade, over exact
arithmetic (rationals in place of `float64`): for `x > 0`, `y > 0` and
`a > 0`, on fresh pools `Simulate [a]` returns the same `driftX` for both and a strictly
greater `driftY` for Later-Separate, the gap in `Y + FY` being
`y * FeeRate * (1 - FeeRate) * a^2 / ((x + a) * (x + a - a * FeeRate))`, which is
positive; so `Benchmark` over a batch of single positive-trade sequences counts every
trial in `winX`, `winY` and `winXY`. -/
theorem later_dominates_original_single (x y a : ℚ) (group : List (List ℚ))
    (hx : 0 < x) (hy : 0 < y) (ha : 0 < a) (hg : ∀ t ∈ group, ∃ b, 0 < b ∧ t = [b]) :
    (Simulate (NewSwap x y FeeModelLaterSeparate) [a] false).2.1
      = (Simulate (NewSwap x y FeeModelOriginal) [a] false).2.1 ∧
    (Simulate (NewSwap x y FeeModelOriginal) [a] false).2.2
      < (Simulate (NewSwap x y FeeModelLaterSeparate) [a] false).2.2 ∧
    ((Trade (NewSwap x y FeeModelLaterSeparate) a).Y
        + (Trade (NewSwap x y FeeModelLaterSeparate) a).FY)
      - ((Trade (NewSwap x y FeeModelOriginal) a).Y
        + (Trade (NewSwap x y FeeModelOriginal) a).FY)
      = y * FeeRate * (1 - FeeRate) * a ^ 2 / ((x + a) * (x + a - a * FeeRate)) ∧
    0 < y * FeeRate * (1 - FeeRate) * a ^ 2 / ((x + a) * (x + a - a * FeeRate)) ∧
    (Benchmark x y group FeeModelLaterSeparate).winX = group.length ∧
    (Benchmark x y group FeeModelLaterSeparate).winY = group.length ∧
    (Benchmark x y group FeeModelLaterSeparate).winXY = group.length := by
  obtain ⟨h1, h2, h3⟩ := later_vs_original_single x y a hx hy ha
  have hnet := net_amount_pos a ha
  have hpos : 0 < y * FeeRate * (1 - FeeRate) * a ^ 2
      / ((x + a) * (x + a - a * FeeRate)) := by
    apply div_pos
    · exact mul_pos (mul_pos (mul_pos hy FeeRate_pos) (by linarith [FeeRate_lt_one]))
        (pow_pos ha 2)
    · exact mul_pos (by linarith) (by linarith)
  refine ⟨h1, h2, h3, hpos, ?_, ?_, ?_⟩ <;>
    simp [Benchmark, foldl_benchmarkStep_later_single x y group _ hx hy hg]

/-- Witness of the amended C18 on the reserves `10000`, `100000`, the amount `100` and a
batch of two single-trade sequences. -/
theorem later_dominates_original_single_witness :
    (Simulate (NewSwap 10000 100000 FeeModelOriginal) [100] false).2.2
      < (Simulate (NewSwap 10000 100000 FeeModelLaterSeparate) [100] false).2.2 ∧
    (Benchmark 10000 100000 [[100], [7]] FeeModelLaterSeparate).winXY = 2 :=
  have h := later_dominates_original_single 10000 100000 100 [[100], [7]] (by norm_num)
    (by norm_num) (by norm_num)
    (by
      intro t ht
      simp only [List.mem_cons, List.mem_singleton, List.not_mem_nil, or_false] at ht
      rcases ht with rfl | rfl
      · exact ⟨100, by norm_num, rfl⟩
      · exact ⟨7, by norm_num, rfl⟩)
  ⟨h.2.1, h.2.2.2.2.2.2⟩

/-- After one trade of any amount on fresh pools, Separate and Original have the same
gross holdings. -/
theorem separate_vs_original_gross (x y a : ℚ) :
    (Trade (NewSwap x y FeeModelSeparate) a).X + (Trade (NewSwap x y FeeModelSeparate) a).FX
      = (Trade (NewSwap x y FeeModelOriginal) a).X
        + (Trade (NewSwap x y FeeModelOriginal) a).FX ∧
    (Trade (NewSwap x y FeeModelSeparate) a).Y + (Trade (NewSwap x y FeeModelSeparate) a).FY
      = (Trade (NewSwap x y FeeModelOriginal) a).Y
        + (Trade (NewSwap x y FeeModelOriginal) a).FY := by
  by_cases ha : 0 < a
  · rw [Trade_separate_pos (NewSwap x y FeeModelSeparate) a rfl ha,
      Trade_original_pos (NewSwap x y FeeModelOriginal) a rfl ha]
    simp only [NewSwap]
    constructor <;> first | trivial | ring
  · rw [Trade_separate_nonpos (NewSwap x y FeeModelSeparate) a rfl ha,
      Trade_original_nonpos (NewSwap x y FeeModelOriginal) a rfl ha]
    simp only [NewSwap]
    constructor <;> first | trivial | ring

/-- On a sequence of one trade, `Simulate` returns the drifts of the gross holdings
after that trade, over the initial reserves of the pool it started from. -/
theorem Simulate_single (s : Swap) (a : ℚ) (verbose : Bool) :
    (Simulate s [a] verbose).2
      = (((Trade s a).X + (Trade s a).FX - s.IX) / s.IX,
          ((Trade s a).Y + (Trade s a).FY - s.IY) / s.IY) := by
  obtain ⟨-, h2, h3⟩ := Trade_frame s a
  simp only [Simulate, List.foldl_cons, List.foldl_nil, h2, h3]

/-- C19. Separate and Original agree on a single trade: for `x > 0`, `y > 0` and any
amount `a`, fresh pools under the two policies have after `Trade a` the same gross
holdings `X + FX` and `Y + FY`, so `Simulate [a]` returns the same pair under both; the
returned pairs agree on every sequence of at most one trade. -/
theorem separate_agrees_original_single (x y a : ℚ) (_hx : 0 < x) (_hy : 0 < y) :
    ((Trade (NewSwap x y FeeModelSeparate) a).X
        + (Trade (NewSwap x y FeeModelSeparate) a).FX
      = (Trade (NewSwap x y FeeModelOriginal) a).X
        + (Trade (NewSwap x y FeeModelOriginal) a).FX ∧
     (Trade (NewSwap x y FeeModelSeparate) a).Y
        + (Trade (NewSwap x y FeeModelSeparate) a).FY
      = (Trade (NewSwap x y FeeModelOriginal) a).Y
        + (Trade (NewSwap x y FeeModelOriginal) a).FY) ∧
    (Simulate (NewSwap x y FeeModelSeparate) [a] false).2
      = (Simulate (NewSwap x y FeeModelOriginal) [a] false).2 ∧
    (∀ trades : List ℚ, trades.length ≤ 1 →
      (Simulate (NewSwap x y FeeModelSeparate) trades false).2
        = (Simulate (NewSwap x y FeeModelOriginal) trades false).2) := by
  have single : ∀ b : ℚ, (Simulate (NewSwap x y FeeModelSeparate) [b] false).2
      = (Simulate (NewSwap x y FeeModelOriginal) [b] false).2 := by
    intro b
    obtain ⟨g1, g2⟩ := separate_vs_original_gross x y b
    rw [Simulate_single, Simulate_single, g1, g2]
    rfl
  refine ⟨separate_vs_original_gross x y a, single a, ?_⟩
  intro trades hlen
  match trades, hlen with
  | [], _ => rfl
  | [b], _ => exact single b
  | _ :: _ :: _, h => simp at h

/-- Witness of C19 on the reserves `10000`, `100000` and the amount `-250`. -/
theorem separate_agrees_original_single_witness :
    (Simulate (NewSwap 10000 100000 FeeModelSeparate) [-250] false).2
      = (Simulate (NewSwap 10000 100000 FeeModelOriginal) [-250] false).2 :=
  (separate_agrees_original_single 10000 100000 (-250) (by norm_num) (by norm_num)).2.1

/-- From the second trade on the two policies do differ: on `[100, 100]` from the
reserves `10000`, `100000` the returned `driftY` is not the same. -/
theorem separate_differs_original_two_trades :
    (Simulate (NewSwap 10000 100000 FeeModelSeparate) [100, 100] false).2.2
      ≠ (Simulate (NewSwap 10000 100000 FeeModelOriginal) [100, 100] false).2.2 := by
  norm_num [Simulate, NewSwap, Trade, FeeModelOriginal, FeeModelSeparate, FeeRate]

/-! ## The counters of `Benchmark` -/

/-- One iteration of the loop, under any candidate: each of `winX - winXY` and
`winY - winXY` does not decrease, and `winX + winY - winXY + failXY` advances by one. -/
theorem benchmarkStep_counts (x y : ℚ) (m : Int) (c : Counters) (trades : List ℚ) :
    c.winX - c.winXY ≤ (benchmarkStep x y m c trades).winX
        - (benchmarkStep x y m c trades).winXY ∧
    c.winY - c.winXY ≤ (benchmarkStep x y m c trades).winY
        - (benchmarkStep x y m c trades).winXY ∧
    (benchmarkStep x y m c trades).winX + (benchmarkStep x y m c trades).winY
        - (benchmarkStep x y m c trades).winXY + (benchmarkStep x y m c trades).failXY
      = c.winX + c.winY - c.winXY + c.failXY + 1 := by
  simp only [benchmarkStep]
  generalize (Simulate (NewSwap x y FeeModelOriginal) trades false).2.1 = oX
  generalize (Simulate (NewSwap x y FeeModelOriginal) trades false).2.2 = oY
  generalize (Simulate (NewSwap x y m) trades false).2.1 = sX
  generalize (Simulate (NewSwap x y m) trades false).2.2 = sY
  by_cases hA : sX ≥ oX <;> by_cases hB : sY ≥ oY
  · have nA : ¬ sX < oX := not_lt.mpr hA
    simp only [hA, hB, nA, and_self, if_true, false_and, if_false]
    refine ⟨?_, ?_, ?_⟩ <;> omega
  · have nA : ¬ sX < oX := not_lt.mpr hA
    simp only [hA, hB, nA, and_false, if_true, false_and, if_false]
    refine ⟨?_, ?_, ?_⟩ <;> omega
  · have nB : ¬ sY < oY := not_lt.mpr hB
    simp only [hA, hB, nB, and_false, false_and, if_true, if_false]
    refine ⟨?_, ?_, ?_⟩ <;> omega
  · have pA : sX < oX := not_le.mp hA
    have pB : sY < oY := not_le.mp hB
    simp only [hA, hB, pA, pB, and_self, if_true, if_false]
    refine ⟨?_, ?_, ?_⟩ <;> omega

/-- The loop under any candidate, from any counters. -/
theorem foldl_benchmarkStep_counts (x y : ℚ) (m : Int) (group : List (List ℚ))
    (c : Counters) :
    c.winX - c.winXY ≤ (group.foldl (benchmarkStep x y m) c).winX
        - (group.foldl (benchmarkStep x y m) c).winXY ∧
    c.winY - c.winXY ≤ (group.foldl (benchmarkStep x y m) c).winY
        - (group.foldl (benchmarkStep x y m) c).winXY ∧
    (group.foldl (benchmarkStep x y m) c).winX + (group.foldl (benchmarkStep x y m) c).winY
        - (group.foldl (benchmarkStep x y m) c).winXY
        + (group.foldl (benchmarkStep x y m) c).failXY
      = c.winX + c.winY - c.winXY + c.failXY + group.length := by
  induction group generalizing c with
  | nil => simp
  | cons t rest ih =>
    obtain ⟨h1, h2, h3⟩ := benchmarkStep_counts x y m c t
    obtain ⟨g1, g2, g3⟩ := ih (benchmarkStep x y m c t)
    rw [List.foldl_cons]
    refine ⟨le_trans h1 g1, le_trans h2 g2, ?_⟩
    rw [g3, h3, List.length_cons]
    push_cast
    ring

/-- C20. Benchmark counters are consistent: for every batch, reserves and candidate tag,
the final counters satisfy `winXY ≤ winX`, `winXY ≤ winY` and
`winX + winY - winXY + failXY` is the number of sequences of the batch. -/
theorem benchmark_counters_consistent (x y : ℚ) (group : List (List ℚ)) (m : Int) :
    (Benchmark x y group m).winXY ≤ (Benchmark x y group m).winX ∧
    (Benchmark x y group m).winXY ≤ (Benchmark x y group m).winY ∧
    (Benchmark x y group m).winX + (Benchmark x y group m).winY
        - (Benchmark x y group m).winXY + (Benchmark x y group m).failXY
      = group.length := by
  obtain ⟨h1, h2, h3⟩ := foldl_benchmarkStep_counts x y m group ⟨0, 0, 0, 0⟩
  simp only [Benchmark]
  refine ⟨?_, ?_, ?_⟩
  · simp only [sub_self] at h1
    linarith
  · simp only [sub_self] at h2
    linarith
  · rw [h3]
    simp

/-! ## Unknown policy tags -/

/-- Counterexample to C15 as written: the tag `0` is none of the three policies, yet
`NewSwap 10000 100000 0` is a pool carrying that tag, and `Trade` on it changes
nothing. -/
theorem newSwap_invalid_tag_accepted :
    (0 : Int) ≠ FeeModelOriginal ∧ (0 : Int) ≠ FeeModelSeparate ∧
    (0 : Int) ≠ FeeModelLaterSeparate ∧
    (NewSwap 10000 100000 0).Model = 0 ∧
    Trade (NewSwap 10000 100000 0) 100 = NewSwap 10000 100000 0 := by
  refine ⟨by decide, by decide, by decide, rfl, ?_⟩
  exact Trade_other _ _ (by decide) (by decide) (by decide)

/-- C15, amended. An unknown policy tag is not reported: for every integer tag that is
none of the three policies, `NewSwap x y tag` is the pool with `Model = tag`,
`X = IX = x`, `Y = IY = y`, `FX = FY = 0`, and on it `Trade` with any amount, hence any
trade sequence, changes nothing. -/
theorem newSwap_unknown_tag (x y : ℚ) (tag : Int) (a : ℚ) (trades : List ℚ)
    (h1 : tag ≠ FeeModelOriginal) (h2 : tag ≠ FeeModelSeparate)
    (h3 : tag ≠ FeeModelLaterSeparate) :
    NewSwap x y tag = ⟨tag, x, y, x, y, 0, 0⟩ ∧
    Trade (NewSwap x y tag) a = NewSwap x y tag ∧
    trades.foldl Trade (NewSwap x y tag) = NewSwap x y tag := by
  refine ⟨rfl, Trade_other _ _ h1 h2 h3, ?_⟩
  induction trades with
  | nil => rfl
  | cons b rest ih => rw [List.foldl_cons, Trade_other _ _ h1 h2 h3, ih]

/-- Witness of the amended C15 on the tag `7`. -/
theorem newSwap_unknown_tag_witness :
    [100, -50].foldl Trade (NewSwap 10000 100000 7) = NewSwap 10000 100000 7 :=
  (newSwap_unknown_tag 10000 100000 7 0 [100, -50] (by decide) (by decide)
    (by decide)).2.2

/-! ## The program over `float64`: where rounding, overflow and NaN show -/

set_option maxRecDepth 100000
set_option exponentiation.threshold 5000

/-- Counterexample to C9 as written, over `float64`: with the positive reserves `1e200`,
`1e200`, the product `k` overflows to `+Inf`, the second trade of `[1, -1]` computes
`Inf / Inf`, a NaN, for `X`, and `NaN >= NaN` is false: `Benchmark` with the baseline as
candidate ends with `winX = 0`, `winY = 1`, `winXY = 0`, `failXY = 0` on this batch of
one sequence. -/
theorem benchmark_baseline_ties_nan :
    F64.lt (F64.ofNat 0) (F64.round false (10 ^ 200) 1) = true ∧
    Float64.Benchmark (F64.round false (10 ^ 200) 1) (F64.round false (10 ^ 200) 1)
      [[F64.ofNat 1, F64.neg (F64.ofNat 1)]] FeeModelOriginal = ⟨0, 1, 0, 0⟩ := by
  decide

/-- Counterexample to C11 as written, over `float64`: the Later-Separate pool reached
from `NewSwap 10000 100000` by the trades `3000`, `2842` has positive reserves and
non-negative fee buckets, yet `Trade 0` on it computes a quotient `k / Y` rounded above
`X`, hence a negative fee: `FX` decreases, from `0` to `-0x1.89374bc6a7efap-48`, and is
negative. -/
theorem fees_accumulate_rounding :
    F64.lt (F64.ofNat 0) ([F64.ofNat 3000, F64.ofNat 2842].foldl Float64.Trade
      (Float64.NewSwap (F64.ofNat 10000) (F64.ofNat 100000) FeeModelLaterSeparate)).X = true ∧
    F64.lt (F64.ofNat 0) ([F64.ofNat 3000, F64.ofNat 2842].foldl Float64.Trade
      (Float64.NewSwap (F64.ofNat 10000) (F64.ofNat 100000) FeeModelLaterSeparate)).Y = true ∧
    F64.le (F64.ofNat 0) ([F64.ofNat 3000, F64.ofNat 2842].foldl Float64.Trade
      (Float64.NewSwap (F64.ofNat 10000) (F64.ofNat 100000) FeeModelLaterSeparate)).FX = true ∧
    F64.le (F64.ofNat 0) ([F64.ofNat 3000, F64.ofNat 2842].foldl Float64.Trade
      (Float64.NewSwap (F64.ofNat 10000) (F64.ofNat 100000) FeeModelLaterSeparate)).FY = true ∧
    (Float64.Trade ([F64.ofNat 3000, F64.ofNat 2842].foldl Float64.Trade
      (Float64.NewSwap (F64.ofNat 10000) (F64.ofNat 100000) FeeModelLaterSeparate))
        (F64.ofNat 0)).FX = F64.fin true 0x189374bc6a7efa (-100) ∧
    F64.lt (Float64.Trade ([F64.ofNat 3000, F64.ofNat 2842].foldl Float64.Trade
      (Float64.NewSwap (F64.ofNat 10000) (F64.ofNat 100000) FeeModelLaterSeparate))
        (F64.ofNat 0)).FX
      ([F64.ofNat 3000, F64.ofNat 2842].foldl Float64.Trade
        (Float64.NewSwap (F64.ofNat 10000) (F64.ofNat 100000) FeeModelLaterSeparate)).FX
      = true := by
  decide

/-- Counterexample to C17 as written, over `float64`: on the Later-Separate pool
`NewSwap 10000 100000` the trade `1` leaves `X = 10001` and `Y = 0x1.869600418789dp+16`,
whose product, computed by the program's multiplication or exactly, is not the product
`10^9` before the trade. -/
theorem separate_constant_product_rounding :
    (Float64.Trade (Float64.NewSwap (F64.ofNat 10000) (F64.ofNat 100000)
      FeeModelLaterSeparate) (F64.ofNat 1)).X = F64.ofNat 10001 ∧
    (Float64.Trade (Float64.NewSwap (F64.ofNat 10000) (F64.ofNat 100000)
      FeeModelLaterSeparate) (F64.ofNat 1)).Y = F64.fin false 0x1869600418789d (-36) ∧
    F64.mul (F64.ofNat 10000) (F64.ofNat 100000) = F64.ofNat (10 ^ 9) ∧
    F64.mul (F64.ofNat 10001) (F64.fin false 0x1869600418789d (-36)) ≠ F64.ofNat (10 ^ 9) ∧
    F64.toRat (F64.ofNat 10001) * F64.toRat (F64.fin false 0x1869600418789d (-36))
      ≠ F64.toRat (F64.ofNat 10000) * F64.toRat (F64.ofNat 100000) := by
  refine ⟨by decide, by decide, by decide, by decide, ?_⟩
  have h1 : F64.ofNat 10001 = F64.fin false 0x13888000000000 (-39) := by decide
  have h2 : F64.ofNat 10000 = F64.fin false 0x13880000000000 (-39) := by decide
  have h3 : F64.ofNat 100000 = F64.fin false 0x186a0000000000 (-36) := by decide
  rw [h1, h2, h3]
  norm_num [F64.toRat]

/-- Counterexample to C18 as written, over `float64`: with the reserves `10000`, `100000`
and the single positive trade `308`, Original leaves `X = (x + (a - fee)) + fee`, rounded
to `10308.000000000002`, above the `10308` of Later-Separate, so its `driftX` is the
greater and `Benchmark` with the Later-Separate candidate ends with `winX = 0` and
`winXY = 0` on this batch of one sequence. -/
theorem later_dominates_original_rounding :
    (Float64.Trade (Float64.NewSwap (F64.ofNat 10000) (F64.ofNat 100000) FeeModelOriginal)
      (F64.ofNat 308)).X = F64.fin false 0x14220000000001 (-39) ∧
    (Float64.Trade (Float64.NewSwap (F64.ofNat 10000) (F64.ofNat 100000)
      FeeModelLaterSeparate) (F64.ofNat 308)).X = F64.ofNat 10308 ∧
    F64.ofNat 10308 = F64.fin false 0x14220000000000 (-39) ∧
    Float64.Benchmark (F64.ofNat 10000) (F64.ofNat 100000) [[F64.ofNat 308]]
      FeeModelLaterSeparate = ⟨0, 1, 0, 0⟩ := by
  decide

/-! ## Comparisons of a `float64` with itself -/

/-- A datum that is not a NaN is `<=` itself. -/
theorem F64.le_self (x : F64) (h : x ≠ F64.nan) : F64.le x x = true := by
  cases x with
  | nan => exact absurd rfl h
  | inf s => cases s <;> rfl
  | fin s m e => simp [F64.le]

/-- No datum is `<` itself. -/
theorem F64.lt_self (x : F64) : F64.lt x x = false := by
  cases x with
  | nan => rfl
  | inf s => cases s <;> rfl
  | fin s m e => simp [F64.lt]

/-- One iteration of the `float64` loop with the baseline as candidate: the fail counter
stays, and each win counter advances when the drift it compares is not a NaN. -/
theorem Float64.benchmarkStep_baseline (x y : F64) (c : Counters) (trades : List F64) :
    (Float64.benchmarkStep x y FeeModelOriginal c trades).failXY = c.failXY ∧
    ((Float64.Simulate (Float64.NewSwap x y FeeModelOriginal) trades false).2.1 ≠ F64.nan →
      (Float64.Simulate (Float64.NewSwap x y FeeModelOriginal) trades false).2.2 ≠ F64.nan →
      Float64.benchmarkStep x y FeeModelOriginal c trades
        = ⟨c.winX + 1, c.winY + 1, c.winXY + 1, c.failXY⟩) := by
  constructor
  · simp only [Float64.benchmarkStep, F64.lt_self, Bool.false_eq_true, false_and, if_false]
    split_ifs <;> rfl
  · intro h1 h2
    simp only [Float64.benchmarkStep, F64.lt_self, F64.le_self _ h1, F64.le_self _ h2,
      Bool.false_eq_true, false_and, and_self, if_true, if_false]

/-- The `float64` loop with the baseline as candidate, from any counters. -/
theorem Float64.foldl_benchmarkStep_baseline (x y : F64) (group : List (List F64))
    (c : Counters) :
    (group.foldl (Float64.benchmarkStep x y FeeModelOriginal) c).failXY = c.failXY ∧
    ((∀ t ∈ group,
        (Float64.Simulate (Float64.NewSwap x y FeeModelOriginal) t false).2.1 ≠ F64.nan ∧
        (Float64.Simulate (Float64.NewSwap x y FeeModelOriginal) t false).2.2 ≠ F64.nan) →
      group.foldl (Float64.benchmarkStep x y FeeModelOriginal) c
        = ⟨c.winX + group.length, c.winY + group.length, c.winXY + group.length,
            c.failXY⟩) := by
  induction group generalizing c with
  | nil => exact ⟨rfl, fun _ => by simp⟩
  | cons t rest ih =>
    obtain ⟨s1, s2⟩ := Float64.benchmarkStep_baseline x y c t
    obtain ⟨i1, i2⟩ := ih (Float64.benchmarkStep x y FeeModelOriginal c t)
    rw [List.foldl_cons]
    refine ⟨i1.trans s1, fun h => ?_⟩
    obtain ⟨n1, n2⟩ := h t (List.mem_cons_self _ _)
    rw [i2 (fun u hu => h u (List.mem_cons_of_mem _ hu)), s2 n1 n2]
    simp only [List.length_cons, Nat.cast_add, Nat.cast_one, Counters.mk.injEq, and_true]
    refine ⟨?_, ?_, ?_⟩ <;> ring

/-- C9, amended. Ties count as wins wherever no NaN arises: over `float64`, for every
pair of initial reserves and every batch of trade sequences, `Benchmark` with the
candidate equal to the baseline `FeeModelOriginal` ends with `failXY = 0`, and with
`winX = winY = winXY` the number of sequences of the batch provided neither drift that
`Simulate` returns for a sequence of the batch is a NaN. -/
theorem benchmark_baseline_ties_float (x y : F64) (group : List (List F64)) :
    (Float64.Benchmark x y group FeeModelOriginal).failXY = 0 ∧
    ((∀ t ∈ group,
        (Float64.Simulate (Float64.NewSwap x y FeeModelOriginal) t false).2.1 ≠ F64.nan ∧
        (Float64.Simulate (Float64.NewSwap x y FeeModelOriginal) t false).2.2 ≠ F64.nan) →
      (Float64.Benchmark x y group FeeModelOriginal).winX = group.length ∧
      (Float64.Benchmark x y group FeeModelOriginal).winY = group.length ∧
      (Float64.Benchmark x y group FeeModelOriginal).winXY = group.length) := by
  obtain ⟨h1, h2⟩ := Float64.foldl_benchmarkStep_baseline x y group ⟨0, 0, 0, 0⟩
  refine ⟨h1, fun h => ?_⟩
  simp only [Float64.Benchmark, h2 h, zero_add, and_self]

/-- Witness of the amended C9 on the reserves `10000`, `100000` and a batch of two
sequences, none of which yields a NaN. -/
theorem benchmark_baseline_ties_float_witness :
    (Float64.Benchmark (F64.ofNat 10000) (F64.ofNat 100000)
      [[F64.ofNat 100], [F64.neg (F64.ofNat 5), F64.ofNat 3]] FeeModelOriginal).winX = 2 ∧
    (Float64.Benchmark (F64.ofNat 10000) (F64.ofNat 100000)
      [[F64.ofNat 100], [F64.neg (F64.ofNat 5), F64.ofNat 3]] FeeModelOriginal).winY = 2 ∧
    (Float64.Benchmark (F64.ofNat 10000) (F64.ofNat 100000)
      [[F64.ofNat 100], [F64.neg (F64.ofNat 5), F64.ofNat 3]] FeeModelOriginal).winXY = 2 :=
  (benchmark_baseline_ties_float (F64.ofNat 10000) (F64.ofNat 100000)
    [[F64.ofNat 100], [F64.neg (F64.ofNat 5), F64.ofNat 3]]).2 (by decide)

/-! ## Conversions between `int` and `float64` -/

/-- With enough fuel the halving count is the binary logarithm. -/
theorem F64.log2Fuel_eq_log (fuel n : Nat) (h : n ≤ fuel) :
    F64.log2Fuel fuel n = Nat.log 2 n := by
  induction fuel generalizing n with
  | zero =>
    have hn : n = 0 := by omega
    subst hn
    simp [F64.log2Fuel]
  | succ k ih =>
    have hstep : F64.log2Fuel (k + 1) n
        = if n < 2 then 0 else F64.log2Fuel k (n / 2) + 1 := rfl
    by_cases h2 : n < 2
    · rw [hstep, if_pos h2, Nat.log_of_lt h2]
    · have hlog : Nat.log 2 n = Nat.log 2 (n / 2) + 1 :=
        Nat.log_of_one_lt_of_le (by norm_num) (by omega)
      rw [hstep, if_neg h2, ih (n / 2) (by omega), hlog]

/-- The leading-bit position is the binary logarithm. -/
theorem F64.log2_eq_log (n : Nat) : F64.log2 n = Nat.log 2 n :=
  F64.log2Fuel_eq_log n n (le_refl n)

/-- A positive integer below `2^53` is rounded to itself, written with 53 bits. -/
theorem F64.round_exact (s : Bool) (a : Nat) (ha : 0 < a) (hlt : a < 2 ^ 53) :
    F64.round s a 1
      = F64.fin s (a * 2 ^ (52 - Nat.log 2 a)) ((Nat.log 2 a : Int) - 52) := by
  have hL1 : 2 ^ Nat.log 2 a ≤ a := Nat.pow_log_le_self 2 (by omega)
  have hL2 : a < 2 ^ (Nat.log 2 a + 1) := Nat.lt_pow_succ_log_self (by norm_num) a
  have hL : Nat.log 2 a < 53 := Nat.log_lt_of_lt_pow (by omega) hlt
  generalize hLdef : Nat.log 2 a = L at *
  have ha0 : a ≠ 0 := by omega
  have hnn : (0 : Int) ≤ (L : Int) := Int.ofNat_nonneg _
  have hbelow : ¬ a < 1 * 2 ^ L := by omega
  have hmax : max (L : Int) (-1022) - 52 = (L : Int) - 52 := by
    rw [max_eq_left (by omega)]
  have hqe : (L : Int) - 52 ≤ 0 := by omega
  have hexp : (-((L : Int) - 52)).toNat = 52 - L := by omega
  have hnum : a * 2 ^ (52 - L) < 2 ^ 53 := by
    calc a * 2 ^ (52 - L) < 2 ^ (L + 1) * 2 ^ (52 - L) :=
          Nat.mul_lt_mul_of_pos_right hL2 (by positivity)
      _ = 2 ^ 53 := by rw [← pow_add]; congr 1; omega
  have hne : a * 2 ^ (52 - L) ≠ 2 ^ 53 := by omega
  have hq971 : ¬ (971 : Int) < (L : Int) - 52 := by omega
  simp only [F64.round, if_neg ha0, F64.log2_eq_log, hLdef, Nat.log_one_right, Nat.cast_zero,
    sub_zero, hnn, if_true, Int.toNat_ofNat, hbelow, decide_False, Bool.false_eq_true, if_false,
    hmax, hqe, hexp, Nat.div_one, Nat.mod_one, mul_zero, Nat.lt_one_iff, zero_lt_one, hne,
    hq971]

/-- A natural number below `2^53` is a `float64`: rounding it is exact. -/
theorem F64.toRat_round_exact (a : Nat) (hlt : a < 2 ^ 53) :
    (F64.round false a 1).isFinite = true ∧ (F64.round false a 1).toRat = (a : ℚ) := by
  by_cases ha : a = 0
  · subst ha
    simp [F64.round, F64.isFinite, F64.toRat]
  · have hL : Nat.log 2 a < 53 := Nat.log_lt_of_lt_pow ha hlt
    rw [F64.round_exact false a (by omega) hlt]
    refine ⟨rfl, ?_⟩
    simp only [F64.toRat, Bool.false_eq_true, if_false, one_mul]
    have h2 : (2 : ℚ) ≠ 0 := by norm_num
    have e1 : ((Nat.log 2 a : Int) - 52) = -((52 - Nat.log 2 a : Nat) : Int) := by omega
    rw [e1, zpow_neg, zpow_natCast]
    push_cast
    field_simp

/-- Negation negates the value. -/
theorem F64.toRat_neg (x : F64) : (F64.neg x).toRat = -x.toRat := by
  cases x with
  | nan => simp [F64.neg, F64.toRat]
  | inf s => simp [F64.neg, F64.toRat]
  | fin s m e => cases s <;> simp [F64.neg, F64.toRat]

/-- Negation keeps a number a number. -/
theorem F64.isFinite_neg (x : F64) : (F64.neg x).isFinite = x.isFinite := by
  cases x <;> rfl

/-- On a finite positive datum whose integer part fits `int`, conversion is the floor. -/
theorem Float64.truncToInt_eq_floor (x : F64) (hfin : x.isFinite = true)
    (hpos : 0 < x.toRat) (hrange : ⌊x.toRat⌋ < 2 ^ 63) :
    Float64.truncToInt x = ⌊x.toRat⌋ := by
  cases x with
  | nan => simp [F64.isFinite] at hfin
  | inf s => simp [F64.isFinite] at hfin
  | fin s m e =>
    have h2pos : ∀ z : Int, (0 : ℚ) < (2 : ℚ) ^ z := fun z => zpow_pos (by norm_num) z
    cases s with
    | true =>
      exfalso
      simp only [F64.toRat, if_true] at hpos
      have := mul_nonneg (Nat.cast_nonneg m : (0 : ℚ) ≤ m) (h2pos e).le
      linarith
    | false =>
      simp only [F64.toRat, Bool.false_eq_true, if_false, one_mul] at hpos hrange ⊢
      have hfloor : ⌊(m : ℚ) * (2 : ℚ) ^ e⌋
          = ((if 0 ≤ e then m * 2 ^ e.toNat else m / 2 ^ (-e).toNat : Nat) : Int) := by
        by_cases he : 0 ≤ e
        · rw [if_pos he]
          have e1 : e = (e.toNat : Int) := (Int.toNat_of_nonneg he).symm
          rw [e1, zpow_natCast]
          simp only [Int.toNat_ofNat]
          have : (m : ℚ) * 2 ^ e.toNat = ((m * 2 ^ e.toNat : Nat) : ℚ) := by push_cast; ring
          rw [this]
          exact Int.floor_natCast _
        · rw [if_neg he]
          have e1 : e = -((-e).toNat : Int) := by omega
          have : (m : ℚ) * (2 : ℚ) ^ e = (m : ℚ) / ((2 ^ (-e).toNat : Nat) : ℚ) := by
            rw [e1, zpow_neg, zpow_natCast]
            simp only [neg_neg, Int.toNat_ofNat]
            push_cast
            rw [div_eq_mul_inv]
          rw [this]
          exact Rat.floor_natCast_div_natCast _ _
      rw [hfloor] at hrange ⊢
      simp only [Float64.truncToInt, Bool.false_eq_true, if_false]
      have hnn : (0 : Int)
          ≤ ((if 0 ≤ e then m * 2 ^ e.toNat else m / 2 ^ (-e).toNat : Nat) : Int) :=
        Int.ofNat_nonneg _
      rw [if_pos ⟨by omega, hrange⟩]

/-! ## The round-robin generator -/

/-- With a finite reserve `x`, a threshold `t ≥ 1`, `⌊x⌋ / t ≥ 1` and `⌊x⌋` within
`int`, the quotient `int(x) / t` of the generator does not panic and is `⌊x⌋ / t`. -/
theorem Float64.intDiv_truncToInt (x : F64) (t : Int) (hfin : x.isFinite = true)
    (ht : 1 ≤ t) (hq : 1 ≤ ⌊x.toRat⌋ / t) (hrange : ⌊x.toRat⌋ < 2 ^ 63) :
    intDiv (Float64.truncToInt x) t = some (⌊x.toRat⌋ / t) := by
  have hfl : 1 ≤ ⌊x.toRat⌋ := by
    by_contra hcon
    have h0 : ⌊x.toRat⌋ ≤ 0 := by omega
    rcases lt_or_eq_of_le h0 with hneg | hz
    · have := Int.ediv_neg' hneg (by omega : (0 : Int) < t)
      omega
    · rw [hz, Int.zero_ediv] at hq
      omega
  have hpos : 0 < x.toRat := by
    have := Int.floor_pos.mp (by omega : 0 < ⌊x.toRat⌋)
    linarith
  have ht0 : t ≠ 0 := by omega
  have hwrap : ¬ (⌊x.toRat⌋ = -(2 ^ 63) ∧ t = -1) := by omega
  rw [Float64.truncToInt_eq_floor x hfin hpos hrange, intDiv, if_neg ht0, if_neg hwrap,
    Int.tdiv_eq_ediv (by omega) (by omega)]

/-- A loop whose every step succeeds with a known value yields the list of the values. -/
theorem mapM_option_of_forall {α β : Type} (f : α → Option β) (g : α → β) (l : List α)
    (h : ∀ i ∈ l, f i = some (g i)) : l.mapM f = some (l.map g) := by
  induction l with
  | nil => rfl
  | cons a rest ih =>
    rw [List.mapM_cons, h a (List.mem_cons_self _ _),
      ih (fun i hi => h i (List.mem_cons_of_mem _ hi))]
    rfl

/-- A loop whose first step panics yields nothing. -/
theorem mapM_option_head_none {α β : Type} (f : α → Option β) (a : α) (l : List α)
    (h : f a = none) : (a :: l).mapM f = none := by
  rw [List.mapM_cons, h]
  rfl

/-- Under the conditions of the amended C14 the loop body at index `i` does not panic
and writes the converted draw for the bound `⌊IX⌋ / t` at an even index, the negated
converted draw for `⌊IY⌋ / t` at an odd one. -/
theorem Float64.roundRobinEntry_eq (rnd : Nat → Int → Int) (s : Float64.Swap) (t : Int)
    (i : Nat) (ht : 1 ≤ t)
    (hXf : s.IX.isFinite = true) (hX : 1 ≤ ⌊s.IX.toRat⌋ / t) (hXr : ⌊s.IX.toRat⌋ < 2 ^ 63)
    (hYf : s.IY.isFinite = true) (hY : 1 ≤ ⌊s.IY.toRat⌋ / t) (hYr : ⌊s.IY.toRat⌋ < 2 ^ 63) :
    Float64.roundRobinEntry rnd s t i
      = some (if i % 2 = 0 then Float64.float64OfInt (rnd i (⌊s.IX.toRat⌋ / t))
          else F64.neg (Float64.float64OfInt (rnd i (⌊s.IY.toRat⌋ / t)))) := by
  have nX : ¬ ⌊s.IX.toRat⌋ / t ≤ 0 := by omega
  have nY : ¬ ⌊s.IY.toRat⌋ / t ≤ 0 := by omega
  by_cases hi : i % 2 = 0
  · simp only [Float64.roundRobinEntry, hi, if_true,
      Float64.intDiv_truncToInt s.IX t hXf ht hX hXr, Option.some_bind, Intn, if_neg nX,
      Option.map_some']
  · simp only [Float64.roundRobinEntry, hi, if_false,
      Float64.intDiv_truncToInt s.IY t hYf ht hY hYr, Option.some_bind, Intn, if_neg nY,
      Option.map_some']

/-- An `int` of `[0, 2^53)` is converted to `float64` exactly. -/
theorem Float64.float64OfInt_exact (v : Int) (h0 : 0 ≤ v) (h1 : v < 2 ^ 53) :
    (Float64.float64OfInt v).isFinite = true ∧ (Float64.float64OfInt v).toRat = (v : ℚ) := by
  have hneg : ¬ v < 0 := by omega
  have hlt : v.natAbs < 2 ^ 53 := by omega
  obtain ⟨e1, e2⟩ := F64.toRat_round_exact v.natAbs hlt
  have hv : ((v.natAbs : Nat) : ℚ) = (v : ℚ) := by
    have h2 : ((v.natAbs : Nat) : Int) = v := Int.natAbs_of_nonneg h0
    have h3 : (((v.natAbs : Nat) : Int) : ℚ) = (v : ℚ) := by rw [h2]
    rw [← h3, Int.cast_natCast]
  simp only [Float64.float64OfInt, hneg, decide_False]
  exact ⟨e1, e2.trans hv⟩

/-- Counterexample to C14 as written: with `IX = IY = 1e19` and the threshold `3`, which
satisfy `t ≥ 1`, `⌊IX⌋ / t ≥ 1` and `⌊IY⌋ / t ≥ 1`, and draws within their bounds, the
conversion `int(1e19)` leaves the range of `int`, the bound handed to `rand.Intn` is
negative and the generator panics at the first entry: no sequence is returned. -/
theorem roundRobin_panics_beyond_int :
    (∀ (i : Nat) (n : Int), 0 < n →
      0 ≤ (fun (_ : Nat) (_ : Int) => (0 : Int)) i n ∧
      (fun (_ : Nat) (_ : Int) => (0 : Int)) i n < n) ∧
    (1 : Int) ≤ 3 ∧
    1 ≤ ⌊(Float64.NewSwap (F64.ofNat (10 ^ 19)) (F64.ofNat (10 ^ 19))
      FeeModelOriginal).IX.toRat⌋ / 3 ∧
    1 ≤ ⌊(Float64.NewSwap (F64.ofNat (10 ^ 19)) (F64.ofNat (10 ^ 19))
      FeeModelOriginal).IY.toRat⌋ / 3 ∧
    Float64.truncToInt (F64.ofNat (10 ^ 19)) = -(2 ^ 63) ∧
    Float64.ThresholdRoundRobinRandom (fun _ _ => 0)
      (Float64.NewSwap (F64.ofNat (10 ^ 19)) (F64.ofNat (10 ^ 19)) FeeModelOriginal) 3
      = none := by
  have hval : F64.ofNat (10 ^ 19) = F64.fin false 0x1158e460913d00 11 := by decide
  have hfloor : ⌊(F64.fin false 0x1158e460913d00 11).toRat⌋ = 10 ^ 19 := by
    have : (F64.fin false 0x1158e460913d00 11).toRat = ((10 ^ 19 : Int) : ℚ) := by
      norm_num [F64.toRat]
    rw [this, Int.floor_intCast]
  refine ⟨fun i n hn => ⟨le_refl _, hn⟩, by norm_num, ?_, ?_, by decide, ?_⟩
  · show 1 ≤ ⌊(F64.ofNat (10 ^ 19)).toRat⌋ / 3
    rw [hval, hfloor]
    norm_num
  · show 1 ≤ ⌊(F64.ofNat (10 ^ 19)).toRat⌋ / 3
    rw [hval, hfloor]
    norm_num
  · have hr : List.range 10000 = 0 :: List.map Nat.succ (List.range 9999) :=
      List.range_succ_eq_map 9999
    rw [Float64.ThresholdRoundRobinRandom, hr]
    exact mapM_option_head_none _ _ _ (by decide)

/-- C14, amended. Round-robin generator, sign pattern and bounds, within the range of
the conversions: with every draw `rand.Intn(n)` an arbitrary value of `[0, n)`, a
threshold `t ≥ 1`, finite initial reserves with `⌊IX⌋ / t ≥ 1`, `⌊IY⌋ / t ≥ 1` (integer
division), `⌊IX⌋` and `⌊IY⌋` below `2^63` (so that `int` holds them) and both quotients
at most `2^53` (so that `float64` holds every draw), `ThresholdRoundRobinRandom` returns
a sequence of length `10000` whose every even-index entry is an integer of
`[0, ⌊IX⌋ / t)` and every odd-index entry the negation of an integer of `[0, ⌊IY⌋ / t)`,
whatever the draws. -/
theorem roundRobin_pattern (rnd : Nat → Int → Int) (s : Float64.Swap) (t : Int)
    (hrnd : ∀ i n, 0 < n → 0 ≤ rnd i n ∧ rnd i n < n) (ht : 1 ≤ t)
    (hXf : s.IX.isFinite = true) (hX : 1 ≤ ⌊s.IX.toRat⌋ / t) (hXr : ⌊s.IX.toRat⌋ < 2 ^ 63)
    (hXb : ⌊s.IX.toRat⌋ / t ≤ 2 ^ 53)
    (hYf : s.IY.isFinite = true) (hY : 1 ≤ ⌊s.IY.toRat⌋ / t) (hYr : ⌊s.IY.toRat⌋ < 2 ^ 63)
    (hYb : ⌊s.IY.toRat⌋ / t ≤ 2 ^ 53) :
    ∃ l : List F64, Float64.ThresholdRoundRobinRandom rnd s t = some l ∧
      l.length = 10000 ∧
      ∀ (i : Nat) (h : i < l.length),
        (i % 2 = 0 → ∃ v : Int, 0 ≤ v ∧ v < ⌊s.IX.toRat⌋ / t ∧
          l[i].isFinite = true ∧ l[i].toRat = (v : ℚ)) ∧
        (i % 2 = 1 → ∃ v : Int, 0 ≤ v ∧ v < ⌊s.IY.toRat⌋ / t ∧
          l[i].isFinite = true ∧ l[i].toRat = -(v : ℚ)) := by
  refine ⟨(List.range 10000).map (fun i => if i % 2 = 0 then
      Float64.float64OfInt (rnd i (⌊s.IX.toRat⌋ / t))
      else F64.neg (Float64.float64OfInt (rnd i (⌊s.IY.toRat⌋ / t)))), ?_, ?_, ?_⟩
  · exact mapM_option_of_forall _ _ _
      (fun i _ => Float64.roundRobinEntry_eq rnd s t i ht hXf hX hXr hYf hY hYr)
  · rw [List.length_map, List.length_range]
  · intro i h
    rw [List.getElem_map, List.getElem_range]
    constructor
    · intro hi
      obtain ⟨b1, b2⟩ := hrnd i (⌊s.IX.toRat⌋ / t) (by omega)
      obtain ⟨c1, c2⟩ := Float64.float64OfInt_exact (rnd i (⌊s.IX.toRat⌋ / t)) b1 (by omega)
      rw [if_pos hi]
      exact ⟨rnd i (⌊s.IX.toRat⌋ / t), b1, b2, c1, c2⟩
    · intro hi
      have hi0 : ¬ i % 2 = 0 := by omega
      obtain ⟨b1, b2⟩ := hrnd i (⌊s.IY.toRat⌋ / t) (by omega)
      obtain ⟨c1, c2⟩ := Float64.float64OfInt_exact (rnd i (⌊s.IY.toRat⌋ / t)) b1 (by omega)
      rw [if_neg hi0, F64.isFinite_neg, F64.toRat_neg, c2]
      exact ⟨rnd i (⌊s.IY.toRat⌋ / t), b1, b2, c1, rfl⟩

/-- Witness of the amended C14 on the example of the claim, `IX = 10000`, `IY = 100000`,
`t = 10`, with the draws `i mod n`. -/
theorem roundRobin_pattern_witness :
    ∃ l : List F64,
      Float64.ThresholdRoundRobinRandom (fun i n => (i : Int) % n)
        (Float64.NewSwap (F64.ofNat 10000) (F64.ofNat 100000) FeeModelOriginal) 10
        = some l ∧ l.length = 10000 ∧
      ∀ (i : Nat) (h : i < l.length),
        (i % 2 = 0 → ∃ v : Int, 0 ≤ v ∧ v < 1000 ∧
          l[i].isFinite = true ∧ l[i].toRat = (v : ℚ)) ∧
        (i % 2 = 1 → ∃ v : Int, 0 ≤ v ∧ v < 10000 ∧
          l[i].isFinite = true ∧ l[i].toRat = -(v : ℚ)) := by
  have fX : ⌊(Float64.NewSwap (F64.ofNat 10000) (F64.ofNat 100000)
      FeeModelOriginal).IX.toRat⌋ = 10000 := by
    show ⌊(F64.ofNat 10000).toRat⌋ = 10000
    rw [F64.ofNat, (F64.toRat_round_exact 10000 (by norm_num)).2]
    exact Int.floor_natCast _
  have fY : ⌊(Float64.NewSwap (F64.ofNat 10000) (F64.ofNat 100000)
      FeeModelOriginal).IY.toRat⌋ = 100000 := by
    show ⌊(F64.ofNat 100000).toRat⌋ = 100000
    rw [F64.ofNat, (F64.toRat_round_exact 100000 (by norm_num)).2]
    exact Int.floor_natCast _
  have h := roundRobin_pattern (fun i n => (i : Int) % n)
    (Float64.NewSwap (F64.ofNat 10000) (F64.ofNat 100000) FeeModelOriginal) 10
    (fun i n hn => ⟨Int.emod_nonneg _ (by omega), Int.emod_lt_of_pos _ hn⟩)
    (by norm_num)
    (F64.toRat_round_exact 10000 (by norm_num)).1 (by rw [fX]; norm_num)
    (by rw [fX]; norm_num) (by rw [fX]; norm_num)
    (F64.toRat_round_exact 100000 (by norm_num)).1 (by rw [fY]; norm_num)
    (by rw [fY]; norm_num) (by rw [fY]; norm_num)
  rw [fX, fY] at h
  norm_num at h
  exact h

end UniswapSim
